import Mathlib

/-!
Shallow embedding of the Fabric shadow-tree differentiator
(src/ReactCommon/fabric/mounting/Differentiator.cpp) and of
ShadowTreeRegistry::add (src/ReactCommon/fabric/mounting/ShadowTreeRegistry.cpp),
together with theorems settling the frozen claims about them.

Embedding conventions:
- `Tag` is `Int` (the C++ `Tag` is a 32-bit integer; the diff never performs
  arithmetic on tags, only equality, so no wrap-around modelling is needed).
- `ShadowView` keeps the fields the algorithm inspects: the tag, an opaque
  `props` payload standing for every remaining field that participates in
  structural equality (componentName, props, eventEmitter, state, layout size),
  and the layout frame origin, which the slicer shifts by the accumulated
  offset.  Equality is structural, as in the C++ value type.
- `ShadowNode` is a mutual inductive with its own child-list type
  `ShadowNodeList` so that all recursions over a tree are plain structural
  recursions that the kernel can evaluate.
- The recursive driver `calculateShadowViewMutations` is defined through a
  fuel-indexed function `calcMut`; the public wrapper supplies the exact
  termination measure (a sum of `3 ^ subtree-size` weights, which strictly
  decreases along every recursive call of the C++ driver) as fuel, so the
  fuel branch `0` is never reached on the wrapper's own calls.
-/

/-- Layout point (the `Point` used for `layoutMetrics.frame.origin`). -/
structure Point where
  x : Int
  y : Int
deriving DecidableEq, Repr

/-- Componentwise addition, modelling `origin += layoutOffset`. -/
def Point.add (a b : Point) : Point := ⟨a.x + b.x, a.y + b.y⟩

mutual
/-- A shadow node: stable tag, opaque props payload, the order index used by
`reorderInPlaceIfNeeded`, the layout frame origin, the two traits the
differentiator consults (`FormsView`, `FormsStackingContext`) and the ordered
children. -/
inductive ShadowNode where
  | mk (tag : Int) (props : Nat) (orderIndex : Int) (origin : Point)
       (formsView : Bool) (formsStackingContext : Bool)
       (children : ShadowNodeList)

/-- Ordered list of children of a `ShadowNode` (a dedicated mutual type so that
structural recursion over trees kernel-reduces). -/
inductive ShadowNodeList where
  | nil
  | cons (head : ShadowNode) (tail : ShadowNodeList)
end

def ShadowNode.tag : ShadowNode → Int
  | .mk t _ _ _ _ _ _ => t

def ShadowNode.props : ShadowNode → Nat
  | .mk _ p _ _ _ _ _ => p

def ShadowNode.orderIndex : ShadowNode → Int
  | .mk _ _ oi _ _ _ _ => oi

def ShadowNode.origin : ShadowNode → Point
  | .mk _ _ _ o _ _ _ => o

def ShadowNode.formsView : ShadowNode → Bool
  | .mk _ _ _ _ fv _ _ => fv

def ShadowNode.formsStackingContext : ShadowNode → Bool
  | .mk _ _ _ _ _ fsc _ => fsc

def ShadowNode.children : ShadowNode → ShadowNodeList
  | .mk _ _ _ _ _ _ cs => cs

/-- The `ShadowView` value type projected from a node: tag, opaque payload for
the remaining equality-relevant fields, and the layout frame origin. -/
structure ShadowView where
  tag : Int
  props : Nat
  origin : Point
deriving DecidableEq, Repr

/-- The `ShadowView(ShadowNode)` projection constructor. -/
def ShadowNode.toShadowView : ShadowNode → ShadowView
  | .mk t p _ o _ _ _ => ⟨t, p, o⟩

/-- The default-constructed `ShadowView()` used as the parent of the root
`Update` mutation. -/
def emptyShadowView : ShadowView := ⟨0, 0, ⟨0, 0⟩⟩

/-- The pair `{shadowView, shadowNode}` produced by the slicer. -/
structure ShadowViewNodePair where
  shadowView : ShadowView
  shadowNode : ShadowNode

/-- Modelled from the spec: equality of `ShadowViewNodePair`s.  The operator
definition lives in `ShadowView.cpp`, which is not part of the source tree
here; the spec states that pair equality is `lhs.view == rhs.view`, with the
node reference ignored. -/
def ShadowViewNodePair.viewEq (lhs rhs : ShadowViewNodePair) : Prop :=
  lhs.shadowView = rhs.shadowView

instance (lhs rhs : ShadowViewNodePair) : Decidable (lhs.viewEq rhs) :=
  inferInstanceAs (Decidable (lhs.shadowView = rhs.shadowView))

/-- The five mutation variants of `ShadowViewMutation`. -/
inductive ShadowViewMutation where
  | create (newChildShadowView : ShadowView)
  | delete (oldChildShadowView : ShadowView)
  | insert (parentShadowView childShadowView : ShadowView) (index : Int)
  | remove (parentShadowView childShadowView : ShadowView) (index : Int)
  | update (parentShadowView : ShadowView)
           (oldChildShadowView newChildShadowView : ShadowView) (index : Int)
deriving DecidableEq, Repr

/-- The `index` field of a mutation (`-1` for the index-less Create/Delete,
matching the C++ defaults). -/
def ShadowViewMutation.mutIndex : ShadowViewMutation → Int
  | .create _ => -1
  | .delete _ => -1
  | .insert _ _ i => i
  | .remove _ _ i => i
  | .update _ _ _ i => i

/-- Whether a mutation mentions a view with the given tag in any of its view
slots. -/
def ShadowViewMutation.touchesTag (m : ShadowViewMutation) (t : Int) : Bool :=
  match m with
  | .create v => v.tag == t
  | .delete v => v.tag == t
  | .insert p c _ => p.tag == t || c.tag == t
  | .remove p c _ => p.tag == t || c.tag == t
  | .update p o n _ => p.tag == t || o.tag == t || n.tag == t

mutual
/-- Number of nodes in a subtree (termination measure ingredient). -/
def ShadowNode.nodeSize : ShadowNode → Nat
  | .mk _ _ _ _ _ _ cs => 1 + ShadowNodeList.listSize cs

/-- Number of nodes in a forest. -/
def ShadowNodeList.listSize : ShadowNodeList → Nat
  | .nil => 0
  | .cons c cs => ShadowNode.nodeSize c + ShadowNodeList.listSize cs
end

/-- Weight of one slicer pair: `3 ^ size` of the borrowed node. -/
def pairMeasure (p : ShadowViewNodePair) : Nat := 3 ^ p.shadowNode.nodeSize

/-- Termination measure of a sibling-pair list. -/
def pairsMeasure (l : List ShadowViewNodePair) : Nat := (l.map pairMeasure).sum

mutual
/-- Loop body of `sliceChildShadowNodeViewPairsRecursively` for one child:
project the view, shift its origin by the accumulated offset, emit it when the
child forms a stacking context (without recursing) or when it forms a view
(recursing as well), and otherwise only recurse into the child's children with
the shifted origin as the new offset. -/
def sliceChildPairsOfChild (layoutOffset : Point) (childShadowNode : ShadowNode) :
    List ShadowViewNodePair :=
  match childShadowNode with
  | .mk t p oi origin fv fsc cs =>
    let shadowView : ShadowView := ⟨t, p, origin.add layoutOffset⟩
    if fsc then
      [⟨shadowView, ShadowNode.mk t p oi origin fv fsc cs⟩]
    else
      (if fv then [⟨shadowView, ShadowNode.mk t p oi origin fv fsc cs⟩] else [])
      ++ sliceChildPairsOfList shadowView.origin cs

/-- The loop of `sliceChildShadowNodeViewPairsRecursively` over a child list. -/
def sliceChildPairsOfList (layoutOffset : Point) : ShadowNodeList → List ShadowViewNodePair
  | .nil => []
  | .cons childShadowNode rest =>
    sliceChildPairsOfChild layoutOffset childShadowNode
    ++ sliceChildPairsOfList layoutOffset rest
end

/-- The recursive slicer walk (`sliceChildShadowNodeViewPairsRecursively`). -/
def sliceChildShadowNodeViewPairsRecursively (layoutOffset : Point)
    (shadowNode : ShadowNode) : List ShadowViewNodePair :=
  sliceChildPairsOfList layoutOffset shadowNode.children

/-- The child-pair slicer `sliceChildShadowNodeViewPairs`: empty for a node
that forms a view but no stacking context, otherwise the recursive walk of the
children starting at offset `(0, 0)`. -/
def sliceChildShadowNodeViewPairs (shadowNode : ShadowNode) : List ShadowViewNodePair :=
  if !shadowNode.formsStackingContext && shadowNode.formsView then
    []
  else
    sliceChildShadowNodeViewPairsRecursively ⟨0, 0⟩ shadowNode

/-- The sorting comparator of `reorderInPlaceIfNeeded` (strict less-than on
`orderIndex`). -/
def shouldFirstPairComesBeforeSecondOne (lhs rhs : ShadowViewNodePair) : Bool :=
  lhs.shadowNode.orderIndex < rhs.shadowNode.orderIndex

/-- The stable reorder pass: do nothing for fewer than two pairs or when every
`orderIndex` is zero; otherwise stable-sort by `orderIndex`.
`std::stable_sort` with a strict comparator `comp` is modelled by the stable
`List.mergeSort` with the non-strict companion `le a b := !comp b a`. -/
def reorderInPlaceIfNeeded (pairs : List ShadowViewNodePair) : List ShadowViewNodePair :=
  if pairs.length < 2 then
    pairs
  else if !(pairs.any fun pair => pair.shadowNode.orderIndex != 0) then
    pairs
  else
    pairs.mergeSort (fun lhs rhs => !shouldFirstPairComesBeforeSecondOne rhs lhs)

/-- The naive tag-keyed map of the differentiator.  The backing store is a
small vector of key-value pairs; `insert` is an unconditional `push_back`
(the C++ `assert(pair.first != 0)` is a debug-build precondition, not a
behaviour), `find` is a linear scan for the first entry whose key equals the
query, and `erase` writes key `0` into the found slot in place. -/
structure TinyMap (α : Type) where
  vector_ : List (Int × α)

/-- Models `insert`: unconditional `push_back`. -/
def TinyMap.insert {α : Type} (m : TinyMap α) (pair : Int × α) : TinyMap α :=
  ⟨m.vector_ ++ [pair]⟩

/-- Linear scan of `find`, carrying the position so that the returned handle
(position and entry) models the returned `Pair *`. -/
def TinyMap.findAux {α : Type} (i : Nat) (key : Int) :
    List (Int × α) → Option (Nat × (Int × α))
  | [] => none
  | item :: rest =>
    if item.1 = key then some (i, item) else TinyMap.findAux (i + 1) key rest

/-- Models `find`: first entry whose key equals `key`, or `none` for the end
sentinel. -/
def TinyMap.find {α : Type} (m : TinyMap α) (key : Int) : Option (Nat × (Int × α)) :=
  TinyMap.findAux 0 key m.vector_

/-- Writes key `0` into position `j`, leaving every other slot untouched
(no compaction). -/
def tombstoneAt {α : Type} : Nat → List (Int × α) → List (Int × α)
  | _, [] => []
  | 0, item :: rest => (0, item.2) :: rest
  | j + 1, item :: rest => item :: tombstoneAt j rest

/-- Models `erase(iterator)`: `iterator->first = 0` in place. -/
def TinyMap.erase {α : Type} (m : TinyMap α) (j : Nat) : TinyMap α :=
  ⟨tombstoneAt j m.vector_⟩

/-- The entries laid out in memory starting at `begin()`.  In the C++ class,
`begin()` returns the raw backing buffer cast to `Pair *` and `end()` returns
`nullptr`; there is no tombstone-skipping code anywhere in the class, so the
entries an iteration starting at `begin()` reads are exactly the backing
vector, tombstoned slots included. -/
def TinyMap.iteratedEntries {α : Type} (m : TinyMap α) : List (Int × α) :=
  m.vector_

/-- The live (non-tombstoned) entries of the map. -/
def TinyMap.liveEntries {α : Type} (m : TinyMap α) : List (Int × α) :=
  m.vector_.filter fun item => item.1 != 0

/-- Pairs a list with consecutive indices starting at `start` (the loop
counters of stages 2 to 4). -/
def listWithIndicesFrom {α : Type} (start : Nat) : List α → List (Nat × α)
  | [] => []
  | a :: as => (start, a) :: listWithIndicesFrom (start + 1) as

/-- Length of the aligned prefix consumed by stage 1: the loop runs while both
lists have an element at the index and their tags agree. -/
def matchedPrefixLength : List ShadowViewNodePair → List ShadowViewNodePair → Nat
  | oldChildPair :: oldRest, newChildPair :: newRest =>
    if oldChildPair.shadowView.tag = newChildPair.shadowView.tag then
      matchedPrefixLength oldRest newRest + 1
    else 0
  | _, _ => 0

/-- The six local mutation lists plus the two recursive-output lists of one
`calculateShadowViewMutations` activation. -/
structure ShadowViewMutationParts where
  createMutations : List ShadowViewMutation
  deleteMutations : List ShadowViewMutation
  insertMutations : List ShadowViewMutation
  removeMutations : List ShadowViewMutation
  updateMutations : List ShadowViewMutation
  downwardMutations : List ShadowViewMutation
  destructiveDownwardMutations : List ShadowViewMutation

/-- Stage 1 loop over the aligned prefix (indexed old/new pairs with equal
tags): emit an `Update` when the views differ, then recurse into the sliced
grandchildren, sending the result to `downwardMutations` when the new child has
effective children and to `destructiveDownwardMutations` otherwise.  Returns
`(updateMutations, downward part, destructive part)`. -/
def stage1Go (recurse : ShadowView → List ShadowViewNodePair → List ShadowViewNodePair → List ShadowViewMutation)
    (parentShadowView : ShadowView) :
    List (Nat × ShadowViewNodePair × ShadowViewNodePair) →
    List ShadowViewMutation × List ShadowViewMutation × List ShadowViewMutation
  | [] => ([], [], [])
  | (i, oldChildPair, newChildPair) :: rest =>
    let upd : List ShadowViewMutation :=
      if oldChildPair.shadowView = newChildPair.shadowView then []
      else [ShadowViewMutation.update parentShadowView oldChildPair.shadowView
              newChildPair.shadowView (Int.ofNat i)]
    let oldGrandChildPairs := sliceChildShadowNodeViewPairs oldChildPair.shadowNode
    let newGrandChildPairs := sliceChildShadowNodeViewPairs newChildPair.shadowNode
    let sub := recurse oldChildPair.shadowView oldGrandChildPairs newGrandChildPairs
    let routed : List ShadowViewMutation × List ShadowViewMutation :=
      if newGrandChildPairs.length ≠ 0 then (sub, []) else ([], sub)
    let rest1 := stage1Go recurse parentShadowView rest
    (upd ++ rest1.1, routed.1 ++ rest1.2.1, routed.2 ++ rest1.2.2)

/-- Stage 3 loop over the indexed old tail: always emit a `Remove`; when the
tag is not found among the inserted pairs emit a `Delete` and recurse
destructively with empty new children; when it is found, recurse (into the
downward or destructive list according to the new grandchildren) only if the
found pair differs from the removed one, and tombstone the map entry.  Returns
`(removeMutations, deleteMutations, downward part, destructive part, final map)`. -/
def stage3Go (recurse : ShadowView → List ShadowViewNodePair → List ShadowViewNodePair → List ShadowViewMutation)
    (parentShadowView : ShadowView) :
    List (Nat × ShadowViewNodePair) → TinyMap ShadowViewNodePair →
    List ShadowViewMutation × List ShadowViewMutation × List ShadowViewMutation ×
      List ShadowViewMutation × TinyMap ShadowViewNodePair
  | [], insertedPairs => ([], [], [], [], insertedPairs)
  | (i, oldChildPair) :: rest, insertedPairs =>
    let rem := ShadowViewMutation.remove parentShadowView oldChildPair.shadowView (Int.ofNat i)
    match insertedPairs.find oldChildPair.shadowView.tag with
    | none =>
      let destr := recurse oldChildPair.shadowView
        (sliceChildShadowNodeViewPairs oldChildPair.shadowNode) []
      let rest3 := stage3Go recurse parentShadowView rest insertedPairs
      (rem :: rest3.1, ShadowViewMutation.delete oldChildPair.shadowView :: rest3.2.1,
        rest3.2.2.1, destr ++ rest3.2.2.2.1, rest3.2.2.2.2)
    | some (j, entry) =>
      let newChildPair := entry.2
      let routed : List ShadowViewMutation × List ShadowViewMutation :=
        if newChildPair.viewEq oldChildPair then ([], [])
        else
          let oldGrandChildPairs := sliceChildShadowNodeViewPairs oldChildPair.shadowNode
          let newGrandChildPairs := sliceChildShadowNodeViewPairs newChildPair.shadowNode
          let sub := recurse newChildPair.shadowView oldGrandChildPairs newGrandChildPairs
          if newGrandChildPairs.length ≠ 0 then (sub, []) else ([], sub)
      let rest3 := stage3Go recurse parentShadowView rest (insertedPairs.erase j)
      (rem :: rest3.1, rest3.2.1, routed.1 ++ rest3.2.2.1,
        routed.2 ++ rest3.2.2.2.1, rest3.2.2.2.2)

/-- Stage 4 loop over the indexed new tail: when the tag is still live in the
map (not erased in stage 3) emit a `Create` and recurse with empty old
children into the downward list.  Returns `(createMutations, downward part)`. -/
def stage4Go (recurse : ShadowView → List ShadowViewNodePair → List ShadowViewNodePair → List ShadowViewMutation)
    (insertedPairs : TinyMap ShadowViewNodePair) :
    List (Nat × ShadowViewNodePair) → List ShadowViewMutation × List ShadowViewMutation
  | [] => ([], [])
  | (_, newChildPair) :: rest =>
    let rest4 := stage4Go recurse insertedPairs rest
    if (insertedPairs.find newChildPair.shadowView.tag).isSome then
      (ShadowViewMutation.create newChildPair.shadowView :: rest4.1,
        recurse newChildPair.shadowView []
          (sliceChildShadowNodeViewPairs newChildPair.shadowNode) ++ rest4.2)
    else
      (rest4.1, rest4.2)

/-- One activation of the recursive driver, producing the local mutation lists
of the four stages; `recurse` stands for the recursive call. -/
def calcStages (recurse : ShadowView → List ShadowViewNodePair → List ShadowViewNodePair → List ShadowViewMutation)
    (parentShadowView : ShadowView)
    (oldChildPairsIn newChildPairsIn : List ShadowViewNodePair) : ShadowViewMutationParts :=
  let oldChildPairs := reorderInPlaceIfNeeded oldChildPairsIn
  let newChildPairs := reorderInPlaceIfNeeded newChildPairsIn
  let lastIndexAfterFirstStage := matchedPrefixLength oldChildPairs newChildPairs
  let aligned := listWithIndicesFrom 0
    ((oldChildPairs.take lastIndexAfterFirstStage).zip (newChildPairs.take lastIndexAfterFirstStage))
  let s1 := stage1Go recurse parentShadowView aligned
  let newTail := listWithIndicesFrom lastIndexAfterFirstStage
    (newChildPairs.drop lastIndexAfterFirstStage)
  let insertMutations := newTail.map fun p =>
    ShadowViewMutation.insert parentShadowView p.2.shadowView (Int.ofNat p.1)
  let insertedPairs : TinyMap ShadowViewNodePair :=
    newTail.foldl (fun m p => m.insert (p.2.shadowView.tag, p.2)) ⟨[]⟩
  let oldTail := listWithIndicesFrom lastIndexAfterFirstStage
    (oldChildPairs.drop lastIndexAfterFirstStage)
  let s3 := stage3Go recurse parentShadowView oldTail insertedPairs
  let s4 := stage4Go recurse s3.2.2.2.2 newTail
  ⟨s4.1, s3.2.1, insertMutations, s3.1, s1.1,
    s1.2.1 ++ s3.2.2.1 ++ s4.2, s1.2.2 ++ s3.2.2.2.1⟩

/-- The flush at the end of the driver: all local lists appended to the
caller's list in the optimal order, with the removes reversed. -/
def flushInOptimalOrder (parts : ShadowViewMutationParts) : List ShadowViewMutation :=
  parts.destructiveDownwardMutations ++ parts.updateMutations
    ++ parts.removeMutations.reverse ++ parts.deleteMutations
    ++ parts.createMutations ++ parts.downwardMutations ++ parts.insertMutations

/-- Fuel-indexed recursive driver.  The fuel only bookkeeps termination: the
wrapper below supplies the exact measure, which strictly dominates the measure
of every recursive call, so the `0` branch is unreachable from the wrapper. -/
def calcMut : Nat → ShadowView → List ShadowViewNodePair → List ShadowViewNodePair →
    List ShadowViewMutation
  | 0, _, _, _ => []
  | fuel + 1, parentShadowView, oldChildPairs, newChildPairs =>
    if oldChildPairs.length = 0 ∧ newChildPairs.length = 0 then []
    else
      flushInOptimalOrder (calcStages (calcMut fuel) parentShadowView oldChildPairs newChildPairs)

/-- The recursive `calculateShadowViewMutations` driver (list-level overload):
runs the fueled driver with the exact termination measure as fuel. -/
def calculateShadowViewMutations (parentShadowView : ShadowView)
    (oldChildPairs newChildPairs : List ShadowViewNodePair) : List ShadowViewMutation :=
  calcMut (pairsMeasure oldChildPairs + pairsMeasure newChildPairs)
    parentShadowView oldChildPairs newChildPairs

/-- The root entry point (the node-level `calculateShadowViewMutations`
overload, called `diffRoots` in the spec): emit the root `Update` with the
empty parent and index `-1` when the root views differ, then diff the two
sliced child lists with the old root's view as parent. -/
def diffRoots (oldRootShadowNode newRootShadowNode : ShadowNode) : List ShadowViewMutation :=
  let oldRootShadowView := oldRootShadowNode.toShadowView
  let newRootShadowView := newRootShadowNode.toShadowView
  (if oldRootShadowView = newRootShadowView then []
   else [ShadowViewMutation.update emptyShadowView oldRootShadowView newRootShadowView (-1)])
  ++ calculateShadowViewMutations oldRootShadowView
      (sliceChildShadowNodeViewPairs oldRootShadowNode)
      (sliceChildShadowNodeViewPairs newRootShadowNode)

/-- Sum of the `3 ^ nodeSize` weights over a forest. -/
def ShadowNodeList.pow3Sum : ShadowNodeList → Nat
  | .nil => 0
  | .cons c cs => 3 ^ c.nodeSize + ShadowNodeList.pow3Sum cs

/-! The shadow tree registry (ShadowTreeRegistry.cpp). -/

/-- A shadow tree handle: the surface id it reports through `getSurfaceId()`
plus an opaque payload standing for the owned tree. -/
structure ShadowTree where
  surfaceId : Int
  payload : Nat
deriving DecidableEq, Repr

/-- The registry: a surface-id-keyed map of owned trees (the backing
`better::map` modelled as its entry list). -/
structure ShadowTreeRegistry where
  registry_ : List (Int × ShadowTree)
deriving DecidableEq, Repr

/-- Models `registry_.emplace(surfaceId, tree)`: C++ map `emplace` inserts
only when no entry with the key exists, and otherwise leaves the map unchanged
and discards the argument. -/
def mapEmplace (entries : List (Int × ShadowTree)) (k : Int) (v : ShadowTree) :
    List (Int × ShadowTree) :=
  if entries.any (fun e => e.1 == k) then entries else entries ++ [(k, v)]

/-- Models `ShadowTreeRegistry::add` (the exclusive lock guards the in-place
update; the map operation itself is `emplace`). -/
def ShadowTreeRegistry.add (reg : ShadowTreeRegistry) (shadowTree : ShadowTree) :
    ShadowTreeRegistry :=
  ⟨mapEmplace reg.registry_ shadowTree.surfaceId shadowTree⟩

/-- The tree stored under a surface id, if any. -/
def ShadowTreeRegistry.findTree (reg : ShadowTreeRegistry) (surfaceId : Int) :
    Option ShadowTree :=
  (reg.registry_.find? (fun e => e.1 == surfaceId)).map Prod.snd

/-! Spec-side slicer for the refinement claim about the slicer contract. -/

mutual
/-- Modelled from the spec (§4.1, steps 1 to 3): per child, project the view
and add the running offset to its frame origin; a stacking-context child is
emitted without recursing; otherwise the child is emitted when it forms a
view, and the walk recurses into its children passing `offset + C.frame.origin`. -/
def sliceSpecChild (offset : Point) (c : ShadowNode) : List ShadowViewNodePair :=
  match c with
  | .mk t p oi origin fv fsc cs =>
    let view : ShadowView := ⟨t, p, origin.add offset⟩
    if fsc then
      [⟨view, ShadowNode.mk t p oi origin fv fsc cs⟩]
    else
      (if fv then [⟨view, ShadowNode.mk t p oi origin fv fsc cs⟩] else [])
      ++ sliceSpecList (offset.add origin) cs

/-- Modelled from the spec (§4.1): the walk over the children in order. -/
def sliceSpecList (offset : Point) : ShadowNodeList → List ShadowViewNodePair
  | .nil => []
  | .cons c rest => sliceSpecChild offset c ++ sliceSpecList offset rest
end

/-- Modelled from the spec (§4.1, contract): empty when N forms a view but not
a stacking context, otherwise the recursive walk from offset `(0, 0)`. -/
def sliceSpec (n : ShadowNode) : List ShadowViewNodePair :=
  if !n.formsStackingContext && n.formsView then []
  else sliceSpecList ⟨0, 0⟩ n.children

/-! Concrete trees used by the scenario claims.  All nodes are plain
stacking-context views (`FormsView` and `FormsStackingContext` both set) with
order index zero, as the scenarios in the spec prescribe. -/

/-- Child A (tag 1), unchanged across generations. -/
def nA : ShadowNode := .mk 1 0 0 ⟨0, 0⟩ true true .nil

/-- Child B (tag 2) with no children, used by the prepend scenario. -/
def nB : ShadowNode := .mk 2 0 0 ⟨0, 0⟩ true true .nil

/-- Prepend scenario, old root: `P[A]` (P has tag 9). -/
def nPold : ShadowNode := .mk 9 0 0 ⟨0, 0⟩ true true (.cons nA .nil)

/-- Prepend scenario, new root: `P[B, A]`. -/
def nPnew : ShadowNode := .mk 9 0 0 ⟨0, 0⟩ true true (.cons nB (.cons nA .nil))

/-- Grandchild X (tag 3) with its old props payload. -/
def nXred : ShadowNode := .mk 3 1 0 ⟨0, 0⟩ true true .nil

/-- Grandchild X (tag 3) with a different props payload. -/
def nXblue : ShadowNode := .mk 3 2 0 ⟨0, 0⟩ true true .nil

/-- Child B (tag 2) whose subtree holds the old X; B's own view is unchanged
between `nBold` and `nBnew`. -/
def nBold : ShadowNode := .mk 2 0 0 ⟨0, 0⟩ true true (.cons nXred .nil)

/-- Child B (tag 2) whose subtree holds the changed X. -/
def nBnew : ShadowNode := .mk 2 0 0 ⟨0, 0⟩ true true (.cons nXblue .nil)

/-- Coverage scenario, old root: `P[A, B[X(old props)]]`. -/
def nQold : ShadowNode := .mk 9 0 0 ⟨0, 0⟩ true true (.cons nA (.cons nBold .nil))

/-- Coverage scenario, new root: `P[B[X(new props)], A]` (a reorder of A and B
plus a change deep inside B). -/
def nQnew : ShadowNode := .mk 9 0 0 ⟨0, 0⟩ true true (.cons nBnew (.cons nA .nil))

mutual
/-- Every tag in the subtree is nonzero (the tag contract of the spec: zero is
reserved as the TinyMap tombstone sentinel). -/
def ShadowNode.allTagsNonzero : ShadowNode → Bool
  | .mk t _ _ _ _ _ cs => (t != 0) && ShadowNodeList.allTagsNonzero cs

/-- Every tag in the forest is nonzero. -/
def ShadowNodeList.allTagsNonzero : ShadowNodeList → Bool
  | .nil => true
  | .cons c cs => ShadowNode.allTagsNonzero c && ShadowNodeList.allTagsNonzero cs
end

/-- Every pair of the list carries a nonzero view tag and a subtree all of
whose tags are nonzero. -/
def pairsWellTagged (l : List ShadowViewNodePair) : Prop :=
  ∀ p ∈ l, p.shadowView.tag ≠ 0 ∧ p.shadowNode.allTagsNonzero = true

/-- The tag occurs in the flattened (child-layer) projection rooted at the
given sibling-pair list: either as the view tag of one of the pairs, or
deeper, in the projection of one of the pairs' sliced subtrees. -/
inductive TagInProjection : Int → List ShadowViewNodePair → Prop where
  | here (t : Int) (l : List ShadowViewNodePair) (p : ShadowViewNodePair) :
      p ∈ l → p.shadowView.tag = t → TagInProjection t l
  | deeper (t : Int) (l : List ShadowViewNodePair) (p : ShadowViewNodePair) :
      p ∈ l → TagInProjection t (sliceChildShadowNodeViewPairs p.shadowNode) →
      TagInProjection t l

/-- Create-before-Insert, relative to an already-flushed list `avail`: every
Insert occurring in the list is preceded — within `avail` followed by its own
prefix — by a Create of the same view, unless the escape predicate holds for
the inserted view's tag. -/
def createBeforeInsertRel (avail : List ShadowViewMutation)
    (l : List ShadowViewMutation) (escape : Int → Prop) : Prop :=
  ∀ (l1 l2 : List ShadowViewMutation) (pv v : ShadowView) (i : Int),
    l = l1 ++ ShadowViewMutation.insert pv v i :: l2 →
    ShadowViewMutation.create v ∈ avail ++ l1 ∨ escape v.tag

/-! Measure infrastructure: the weight of a sliced child list is strictly
below the weight of the sliced node, which justifies the fuel discipline of
the driver. -/

theorem ShadowNode.one_le_nodeSize (n : ShadowNode) : 1 ≤ n.nodeSize := by
  cases n with
  | mk t p oi o fv fsc cs => simp [ShadowNode.nodeSize]

theorem ShadowNodeList.one_le_listSize_cons (c : ShadowNode) (cs : ShadowNodeList) :
    1 ≤ ShadowNodeList.listSize (.cons c cs) := by
  have h := c.one_le_nodeSize
  simp [ShadowNodeList.listSize]
  omega

theorem pow3_add_pow3_le {a b : Nat} (ha : 1 ≤ a) (hb : 1 ≤ b) :
    3 ^ a + 3 ^ b ≤ 3 ^ (a + b) := by
  have hx : 3 ≤ 3 ^ a := by
    calc 3 = 3 ^ 1 := by norm_num
    _ ≤ 3 ^ a := Nat.pow_le_pow_right (by norm_num) ha
  have hy : 3 ≤ 3 ^ b := by
    calc 3 = 3 ^ 1 := by norm_num
    _ ≤ 3 ^ b := Nat.pow_le_pow_right (by norm_num) hb
  rw [pow_add]
  nlinarith

theorem ShadowNodeList.pow3Sum_le : (l : ShadowNodeList) → l.pow3Sum ≤ 3 ^ l.listSize
  | .nil => by simp [ShadowNodeList.pow3Sum, ShadowNodeList.listSize]
  | .cons c .nil => by
    simp [ShadowNodeList.pow3Sum, ShadowNodeList.listSize]
  | .cons c (.cons d ds) => by
    have ih := ShadowNodeList.pow3Sum_le (.cons d ds)
    have h1 : 1 ≤ c.nodeSize := c.one_le_nodeSize
    have h2 : 1 ≤ ShadowNodeList.listSize (.cons d ds) :=
      ShadowNodeList.one_le_listSize_cons d ds
    calc ShadowNodeList.pow3Sum (.cons c (.cons d ds))
        = 3 ^ c.nodeSize + ShadowNodeList.pow3Sum (.cons d ds) := rfl
      _ ≤ 3 ^ c.nodeSize + 3 ^ ShadowNodeList.listSize (.cons d ds) :=
          Nat.add_le_add_left ih _
      _ ≤ 3 ^ (c.nodeSize + ShadowNodeList.listSize (.cons d ds)) :=
          pow3_add_pow3_le h1 h2
      _ = 3 ^ ShadowNodeList.listSize (.cons c (.cons d ds)) := by
          simp [ShadowNodeList.listSize]

theorem pairsMeasure_nil : pairsMeasure [] = 0 := rfl

theorem pairsMeasure_append (a b : List ShadowViewNodePair) :
    pairsMeasure (a ++ b) = pairsMeasure a + pairsMeasure b := by
  simp [pairsMeasure]

mutual
theorem sliceChildPairsOfChild_measure_le (layoutOffset : Point) (c : ShadowNode) :
    pairsMeasure (sliceChildPairsOfChild layoutOffset c) ≤ 2 * 3 ^ c.nodeSize :=
  match c with
  | .mk t p oi origin fv true cs => by
    simp [sliceChildPairsOfChild, pairsMeasure, pairMeasure]
  | .mk t p oi origin true false cs => by
    have hrec := sliceChildPairsOfList_measure_le (origin.add layoutOffset) cs
    have hsum := cs.pow3Sum_le
    have hsz : (ShadowNode.mk t p oi origin true false cs).nodeSize
        = 1 + cs.listSize := rfl
    have hslice : sliceChildPairsOfChild layoutOffset (.mk t p oi origin true false cs)
        = ⟨⟨t, p, origin.add layoutOffset⟩, ShadowNode.mk t p oi origin true false cs⟩ ::
          sliceChildPairsOfList (origin.add layoutOffset) cs := by
      simp [sliceChildPairsOfChild]
    rw [hslice, hsz]
    have hcons : pairsMeasure
        (⟨⟨t, p, origin.add layoutOffset⟩, ShadowNode.mk t p oi origin true false cs⟩ ::
          sliceChildPairsOfList (origin.add layoutOffset) cs)
        = 3 ^ (1 + cs.listSize)
          + pairsMeasure (sliceChildPairsOfList (origin.add layoutOffset) cs) := by
      simp [pairsMeasure, pairMeasure, ShadowNode.nodeSize]
    rw [hcons, pow_add]
    have h3 : (0 : Nat) < 3 ^ cs.listSize := Nat.pos_pow_of_pos _ (by norm_num)
    nlinarith
  | .mk t p oi origin false false cs => by
    have hrec := sliceChildPairsOfList_measure_le (origin.add layoutOffset) cs
    have hsum := cs.pow3Sum_le
    have hsz : (ShadowNode.mk t p oi origin false false cs).nodeSize
        = 1 + cs.listSize := rfl
    have hslice : sliceChildPairsOfChild layoutOffset (.mk t p oi origin false false cs)
        = sliceChildPairsOfList (origin.add layoutOffset) cs := by
      simp [sliceChildPairsOfChild]
    rw [hslice, hsz, pow_add]
    have h3 : (0 : Nat) < 3 ^ cs.listSize := Nat.pos_pow_of_pos _ (by norm_num)
    nlinarith

theorem sliceChildPairsOfList_measure_le (layoutOffset : Point) (l : ShadowNodeList) :
    pairsMeasure (sliceChildPairsOfList layoutOffset l) ≤ 2 * l.pow3Sum :=
  match l with
  | .nil => by simp [sliceChildPairsOfList, pairsMeasure, ShadowNodeList.pow3Sum]
  | .cons c cs => by
    have h1 := sliceChildPairsOfChild_measure_le layoutOffset c
    have h2 := sliceChildPairsOfList_measure_le layoutOffset cs
    calc pairsMeasure (sliceChildPairsOfList layoutOffset (.cons c cs))
        = pairsMeasure (sliceChildPairsOfChild layoutOffset c)
          + pairsMeasure (sliceChildPairsOfList layoutOffset cs) := by
          simp [sliceChildPairsOfList, pairsMeasure_append]
      _ ≤ 2 * 3 ^ c.nodeSize + 2 * cs.pow3Sum := by omega
      _ = 2 * ShadowNodeList.pow3Sum (.cons c cs) := by
          simp [ShadowNodeList.pow3Sum]
          ring
end

theorem sliceChildShadowNodeViewPairsRecursively_measure_lt
    (layoutOffset : Point) (n : ShadowNode) :
    pairsMeasure (sliceChildShadowNodeViewPairsRecursively layoutOffset n) < 3 ^ n.nodeSize := by
  cases n with
  | mk t p oi o fv fsc cs =>
    have h1 := sliceChildPairsOfList_measure_le layoutOffset cs
    have h2 := cs.pow3Sum_le
    have h3 : 0 < 3 ^ cs.listSize := Nat.pos_pow_of_pos _ (by norm_num)
    have hrw : sliceChildShadowNodeViewPairsRecursively layoutOffset (.mk t p oi o fv fsc cs)
        = sliceChildPairsOfList layoutOffset cs := rfl
    have hpow : 3 ^ (ShadowNode.mk t p oi o fv fsc cs).nodeSize
        = 3 * 3 ^ cs.listSize := by
      have hsz : (ShadowNode.mk t p oi o fv fsc cs).nodeSize = 1 + cs.listSize := rfl
      rw [hsz, pow_add]
      ring
    rw [hrw, hpow]
    omega

/-- The key strict bound: the sliced child layer of a node weighs strictly
less than the node itself. -/
theorem sliceChildShadowNodeViewPairs_measure_lt (n : ShadowNode) :
    pairsMeasure (sliceChildShadowNodeViewPairs n) < 3 ^ n.nodeSize := by
  have hpos : 0 < 3 ^ n.nodeSize := Nat.pos_pow_of_pos _ (by norm_num)
  unfold sliceChildShadowNodeViewPairs
  by_cases hguard : (!n.formsStackingContext && n.formsView) = true
  · simp [hguard, pairsMeasure]
  · simp only [hguard, if_false, Bool.false_eq_true]
    exact sliceChildShadowNodeViewPairsRecursively_measure_lt ⟨0, 0⟩ n

theorem pairMeasure_le_of_mem {p : ShadowViewNodePair} {l : List ShadowViewNodePair}
    (h : p ∈ l) : pairMeasure p ≤ pairsMeasure l :=
  List.single_le_sum (fun x _ => Nat.zero_le x) _ (List.mem_map_of_mem pairMeasure h)

theorem reorderInPlaceIfNeeded_perm (pairs : List ShadowViewNodePair) :
    List.Perm (reorderInPlaceIfNeeded pairs) pairs := by
  unfold reorderInPlaceIfNeeded
  by_cases h1 : pairs.length < 2
  · simp [h1]
  · simp only [h1, if_false]
    by_cases h2 : (!(pairs.any fun pair => pair.shadowNode.orderIndex != 0)) = true
    · simp [h2]
    · simp only [h2, if_false, Bool.false_eq_true]
      exact List.mergeSort_perm pairs _

theorem mem_reorderInPlaceIfNeeded {p : ShadowViewNodePair}
    {pairs : List ShadowViewNodePair} :
    p ∈ reorderInPlaceIfNeeded pairs ↔ p ∈ pairs :=
  (reorderInPlaceIfNeeded_perm pairs).mem_iff

theorem pairsMeasure_reorderInPlaceIfNeeded (pairs : List ShadowViewNodePair) :
    pairsMeasure (reorderInPlaceIfNeeded pairs) = pairsMeasure pairs :=
  ((reorderInPlaceIfNeeded_perm pairs).map pairMeasure).sum_eq

/-! TinyMap lemmas: how `find` interacts with tombstoning. -/

theorem tombstoneAt_get {α : Type} :
    ∀ (l : List (Int × α)) (j k : Nat),
      (tombstoneAt j l)[k]? =
        if k = j then l[j]?.map (fun e => ((0 : Int), e.2)) else l[k]? := by
  intro l
  induction l with
  | nil =>
    intro j k
    simp [tombstoneAt]
  | cons e rest ih =>
    intro j k
    cases j with
    | zero =>
      cases k with
      | zero => simp [tombstoneAt]
      | succ k => simp [tombstoneAt]
    | succ j =>
      cases k with
      | zero => simp [tombstoneAt]
      | succ k =>
        have := ih j k
        simp only [tombstoneAt, List.getElem?_cons_succ]
        rw [this]
        by_cases hkj : k = j
        · simp [hkj]
        · simp [hkj]

theorem tombstoneAt_eq_set {α : Type} {l : List (Int × α)} {j : Nat} {e : Int × α}
    (h : l[j]? = some e) : tombstoneAt j l = l.set j (0, e.2) := by
  induction l generalizing j with
  | nil => simp at h
  | cons a rest ih =>
    cases j with
    | zero =>
      simp at h
      subst h
      simp [tombstoneAt]
    | succ j =>
      simp at h
      simp [tombstoneAt, ih h]

theorem tombstoneAt_length {α : Type} :
    ∀ (l : List (Int × α)) (j : Nat), (tombstoneAt j l).length = l.length := by
  intro l
  induction l with
  | nil => intro j; simp [tombstoneAt]
  | cons e rest ih =>
    intro j
    cases j with
    | zero => simp [tombstoneAt]
    | succ j => simp [tombstoneAt, ih j]

theorem tombstoneAt_map_snd {α : Type} :
    ∀ (l : List (Int × α)) (j : Nat),
      (tombstoneAt j l).map Prod.snd = l.map Prod.snd := by
  intro l
  induction l with
  | nil => intro j; simp [tombstoneAt]
  | cons e rest ih =>
    intro j
    cases j with
    | zero => simp [tombstoneAt]
    | succ j => simp [tombstoneAt, ih j]

theorem findAux_eq_none_iff {α : Type} (key : Int) :
    ∀ (l : List (Int × α)) (i : Nat),
      TinyMap.findAux i key l = none ↔ ∀ e ∈ l, e.1 ≠ key := by
  intro l
  induction l with
  | nil => intro i; simp [TinyMap.findAux]
  | cons e rest ih =>
    intro i
    by_cases h : e.1 = key
    · simp [TinyMap.findAux, h]
    · simp [TinyMap.findAux, h, ih (i + 1)]

theorem TinyMap.find_eq_none_iff {α : Type} (m : TinyMap α) (key : Int) :
    m.find key = none ↔ ∀ e ∈ m.vector_, e.1 ≠ key :=
  findAux_eq_none_iff key m.vector_ 0

theorem findAux_some {α : Type} (key : Int) :
    ∀ (l : List (Int × α)) (i j : Nat) (e : Int × α),
      TinyMap.findAux i key l = some (j, e) →
        i ≤ j ∧ l[j - i]? = some e ∧ e.1 = key := by
  intro l
  induction l with
  | nil => intro i j e h; simp [TinyMap.findAux] at h
  | cons a rest ih =>
    intro i j e h
    by_cases ha : a.1 = key
    · simp [TinyMap.findAux, ha] at h
      obtain ⟨h1, h2⟩ := h
      subst h1
      subst h2
      simp [ha]
    · simp [TinyMap.findAux, ha] at h
      obtain ⟨hle, hget, hkey⟩ := ih (i + 1) j e h
      refine ⟨by omega, ?_, hkey⟩
      have hji : j - i = (j - (i + 1)) + 1 := by omega
      rw [hji]
      simpa using hget

theorem TinyMap.find_some {α : Type} {m : TinyMap α} {key : Int} {j : Nat} {e : Int × α}
    (h : m.find key = some (j, e)) : m.vector_[j]? = some e ∧ e.1 = key := by
  obtain ⟨_, hget, hkey⟩ := findAux_some key m.vector_ 0 j e h
  simpa using ⟨hget, hkey⟩

theorem findAux_tombstone_of_ne {α : Type} {t : Int} (ht : t ≠ 0) :
    ∀ (l : List (Int × α)) (j : Nat) (e0 : Int × α), l[j]? = some e0 → e0.1 ≠ t →
      ∀ i, TinyMap.findAux i t (tombstoneAt j l) = TinyMap.findAux i t l := by
  intro l
  induction l with
  | nil => intro j e0 h; simp at h
  | cons a rest ih =>
    intro j e0 hget hne i
    cases j with
    | zero =>
      simp at hget
      subst hget
      simp only [tombstoneAt, TinyMap.findAux]
      simp [hne, Ne.symm ht]
    | succ j =>
      simp at hget
      simp only [tombstoneAt, TinyMap.findAux]
      by_cases ha : a.1 = t
      · simp [ha]
      · simp only [ha, if_false]
        exact ih j e0 hget hne (i + 1)

theorem TinyMap.find_erase_of_ne {α : Type} {m : TinyMap α} {t : Int} {j : Nat}
    {e0 : Int × α} (ht : t ≠ 0) (hget : m.vector_[j]? = some e0) (hne : e0.1 ≠ t) :
    (m.erase j).find t = m.find t :=
  findAux_tombstone_of_ne ht m.vector_ j e0 hget hne 0

theorem mem_tombstoneAt {α : Type} :
    ∀ (l : List (Int × α)) (j : Nat) (e : Int × α),
      e ∈ tombstoneAt j l → e ∈ l ∨ e.1 = 0 := by
  intro l
  induction l with
  | nil => intro j e h; simp [tombstoneAt] at h
  | cons a rest ih =>
    intro j e h
    cases j with
    | zero =>
      simp [tombstoneAt] at h
      rcases h with h | h
      · right; rw [h]
      · left; simp [h]
    | succ j =>
      simp [tombstoneAt] at h
      rcases h with h | h
      · left; simp [h]
      · rcases ih j e h with h2 | h2
        · left; simp [h2]
        · right; exact h2

theorem TinyMap.find_none_erase {α : Type} {m : TinyMap α} {t : Int} (ht : t ≠ 0)
    (h : m.find t = none) (j : Nat) : (m.erase j).find t = none := by
  rw [TinyMap.find_eq_none_iff] at h
  rw [TinyMap.find_eq_none_iff]
  intro e he
  rcases mem_tombstoneAt m.vector_ j e he with h2 | h2
  · exact h e h2
  · rw [h2]
    exact Ne.symm ht

theorem TinyMap.find_erase_self_none {α : Type} {m : TinyMap α} {t : Int} {j : Nat}
    {e : Int × α} (ht : t ≠ 0) (hget : m.vector_[j]? = some e)
    (huniq : ∀ k e', m.vector_[k]? = some e' → e'.1 = t → k = j) :
    (m.erase j).find t = none := by
  rw [TinyMap.find_eq_none_iff]
  intro e' he'
  obtain ⟨k, hk⟩ := List.mem_iff_getElem?.mp he'
  have hk' : (tombstoneAt j m.vector_)[k]? = some e' := hk
  rw [tombstoneAt_get m.vector_ j k] at hk'
  by_cases hkj : k = j
  · rw [if_pos hkj, hget] at hk'
    simp at hk'
    rw [hk'.symm]
    exact Ne.symm ht
  · rw [if_neg hkj] at hk'
    intro habs
    exact hkj (huniq k e' hk' habs)

theorem Point.add_comm (a b : Point) : a.add b = b.add a := by
  cases a
  cases b
  simp [Point.add]
  constructor <;> ring

mutual
theorem sliceChildPairsOfChild_eq_spec (offset : Point) (c : ShadowNode) :
    sliceChildPairsOfChild offset c = sliceSpecChild offset c :=
  match c with
  | .mk t p oi origin fv fsc cs => by
    have hrec := sliceChildPairsOfList_eq_spec (origin.add offset) cs
    have hcomm : offset.add origin = origin.add offset := Point.add_comm offset origin
    cases fsc with
    | true => simp [sliceChildPairsOfChild, sliceSpecChild]
    | false =>
      cases fv with
      | true =>
        simp only [sliceChildPairsOfChild, sliceSpecChild, Bool.false_eq_true,
          if_false, if_true, hcomm]
        rw [hrec]
      | false =>
        simp only [sliceChildPairsOfChild, sliceSpecChild, Bool.false_eq_true,
          if_false, hcomm]
        rw [hrec]

theorem sliceChildPairsOfList_eq_spec (offset : Point) (l : ShadowNodeList) :
    sliceChildPairsOfList offset l = sliceSpecList offset l :=
  match l with
  | .nil => rfl
  | .cons c rest => by
    have h1 := sliceChildPairsOfChild_eq_spec offset c
    have h2 := sliceChildPairsOfList_eq_spec offset rest
    simp only [sliceChildPairsOfList, sliceSpecList]
    rw [h1, h2]
end

/-! Claim C7: the slicer satisfies the contract the spec states for it. -/

/-- C7: `sliceChildShadowNodeViewPairs` coincides with the slicing algorithm
as the spec words it — empty when the node forms a view but not a stacking
context, and otherwise the recursive walk that emits a pair for each
stacking-context child without recursing into it, emits every other child only
when it forms a view, and recurses into non-stacking children with the offset
increased by the child's frame origin. -/
theorem slicer_meets_spec_contract (shadowNode : ShadowNode) :
    sliceChildShadowNodeViewPairs shadowNode = sliceSpec shadowNode := by
  unfold sliceChildShadowNodeViewPairs sliceSpec
  by_cases hguard : (!shadowNode.formsStackingContext && shadowNode.formsView) = true
  · simp [hguard]
  · simp only [hguard, if_false, Bool.false_eq_true]
    unfold sliceChildShadowNodeViewPairsRecursively
    exact sliceChildPairsOfList_eq_spec ⟨0, 0⟩ shadowNode.children

/-! Claim C9: TinyMap erase tombstones in place, but begin-to-end iteration
does not skip tombstoned entries. -/

/-- C9 counterexample: in a two-entry map, erasing the handle that `find`
returned for key 1 leaves a key-0 tombstone in the buffer, and the entries
iterated from `begin()` are not the live entries: the tombstoned slot is still
visited. -/
theorem tinyMap_iteration_yields_tombstones :
    (((TinyMap.insert (TinyMap.insert ⟨[]⟩ (1, 10)) (2, 20)) : TinyMap Nat).find 1
        = some (0, (1, 10)))
    ∧ ((((TinyMap.insert (TinyMap.insert ⟨[]⟩ (1, 10)) (2, 20)) : TinyMap Nat).erase
        0).iteratedEntries = [(0, 10), (2, 20)])
    ∧ ((((TinyMap.insert (TinyMap.insert ⟨[]⟩ (1, 10)) (2, 20)) : TinyMap Nat).erase
        0).liveEntries = [(2, 20)])
    ∧ ((((TinyMap.insert (TinyMap.insert ⟨[]⟩ (1, 10)) (2, 20)) : TinyMap Nat).erase
        0).iteratedEntries
      ≠ (((TinyMap.insert (TinyMap.insert ⟨[]⟩ (1, 10)) (2, 20)) : TinyMap Nat).erase
        0).liveEntries) := by
  refine ⟨rfl, rfl, rfl, by decide⟩

/-- C9 as amended: `erase` writes key 0 into the found slot in place, without
compacting (the buffer keeps its length and every other slot); `find` for a
nonzero key never returns a tombstoned entry; but the entries iterated from
`begin()` are the raw buffer, tombstones included. -/
theorem tinyMap_erase_tombstones_in_place {α : Type} (m : TinyMap α) (j : Nat)
    (e : Int × α) (hget : m.vector_[j]? = some e) :
    (m.erase j).vector_ = m.vector_.set j (0, e.2)
    ∧ (m.erase j).vector_.length = m.vector_.length
    ∧ (m.erase j).iteratedEntries = m.vector_.set j (0, e.2)
    ∧ (∀ (t : Int) (r : Nat × (Int × α)), t ≠ 0 → (m.erase j).find t = some r → r.2.1 = t) := by
  have hset : (m.erase j).vector_ = m.vector_.set j (0, e.2) := tombstoneAt_eq_set hget
  refine ⟨hset, ?_, hset, ?_⟩
  · rw [hset]
    exact List.length_set m.vector_ j (0, e.2)
  · intro t r ht hfind
    rcases r with ⟨k, entry⟩
    exact (TinyMap.find_some hfind).2

/-- C9 witness: the amended theorem applied to the concrete two-entry map. -/
theorem tinyMap_erase_tombstones_in_place_witness :
    (((TinyMap.insert (TinyMap.insert ⟨[]⟩ (1, 10)) (2, 20)) : TinyMap Nat).erase 0).vector_
      = [(1, 10), (2, 20)].set 0 (0, 10)
    ∧ (((TinyMap.insert (TinyMap.insert ⟨[]⟩ (1, 10)) (2, 20)) : TinyMap Nat).erase
        0).vector_.length = [((1 : Int), (10 : Nat)), (2, 20)].length
    ∧ (((TinyMap.insert (TinyMap.insert ⟨[]⟩ (1, 10)) (2, 20)) : TinyMap Nat).erase
        0).iteratedEntries = [(1, 10), (2, 20)].set 0 (0, 10)
    ∧ (∀ (t : Int) (r : Nat × (Int × Nat)), t ≠ 0 →
        (((TinyMap.insert (TinyMap.insert ⟨[]⟩ (1, 10)) (2, 20)) : TinyMap Nat).erase
          0).find t = some r → r.2.1 = t) :=
  tinyMap_erase_tombstones_in_place
    ((TinyMap.insert (TinyMap.insert ⟨[]⟩ (1, 10)) (2, 20)) : TinyMap Nat) 0 (1, 10) rfl

/-! Claim C10: adding a tree whose surface id is already registered leaves the
registry unchanged. -/

/-- C10: when the registry already holds a tree under `t.surfaceId`,
`ShadowTreeRegistry::add` leaves the registry unchanged — the previously
stored tree stays mapped to the surface id and the new tree is discarded,
because map `emplace` does not overwrite an existing key. -/
theorem shadowTreeRegistry_add_existing_noop (reg : ShadowTreeRegistry)
    (t told : ShadowTree) (h : reg.findTree t.surfaceId = some told) :
    reg.add t = reg ∧ (reg.add t).findTree t.surfaceId = some told := by
  have hfind : ∃ e, reg.registry_.find? (fun e => e.1 == t.surfaceId) = some e := by
    unfold ShadowTreeRegistry.findTree at h
    cases hcase : reg.registry_.find? (fun e => e.1 == t.surfaceId) with
    | none => rw [hcase] at h; simp at h
    | some e => exact ⟨e, rfl⟩
  obtain ⟨e, he⟩ := hfind
  have hmem : e ∈ reg.registry_ := List.mem_of_find?_eq_some he
  have hpred := List.find?_some he
  have hany : reg.registry_.any (fun e => e.1 == t.surfaceId) = true :=
    List.any_eq_true.mpr ⟨e, hmem, hpred⟩
  have hadd : reg.add t = reg := by
    unfold ShadowTreeRegistry.add mapEmplace
    rw [if_pos hany]
  exact ⟨hadd, by rw [hadd]; exact h⟩

/-- C10 witness: a registry holding surface 1 rejects a second tree for
surface 1. -/
theorem shadowTreeRegistry_add_existing_noop_witness :
    (ShadowTreeRegistry.mk [(1, ⟨1, 5⟩)]).add ⟨1, 7⟩ = ShadowTreeRegistry.mk [(1, ⟨1, 5⟩)]
    ∧ ((ShadowTreeRegistry.mk [(1, ⟨1, 5⟩)]).add ⟨1, 7⟩).findTree (ShadowTree.mk 1 7).surfaceId
      = some ⟨1, 5⟩ :=
  shadowTreeRegistry_add_existing_noop (ShadowTreeRegistry.mk [(1, ⟨1, 5⟩)]) ⟨1, 7⟩ ⟨1, 5⟩ rfl

/-! Claim C8: the sibling reorder pass. -/

theorem reorderLe_trans (a b c : ShadowViewNodePair)
    (hab : (!shouldFirstPairComesBeforeSecondOne b a) = true)
    (hbc : (!shouldFirstPairComesBeforeSecondOne c b) = true) :
    (!shouldFirstPairComesBeforeSecondOne c a) = true := by
  simp [shouldFirstPairComesBeforeSecondOne] at hab hbc ⊢
  omega

theorem reorderLe_total (a b : ShadowViewNodePair) :
    ((!shouldFirstPairComesBeforeSecondOne b a)
      || (!shouldFirstPairComesBeforeSecondOne a b)) = true := by
  simp [shouldFirstPairComesBeforeSecondOne]
  omega

/-- C8: the reorder pass returns a permutation of its input that is sorted by
`orderIndex`; it is stable (the elements carrying any fixed `orderIndex` keep
their source order); and when every `orderIndex` is zero it returns the input
itself, so sibling processing order equals source order. -/
theorem reorderInPlaceIfNeeded_stable_sort (pairs : List ShadowViewNodePair) :
    List.Perm (reorderInPlaceIfNeeded pairs) pairs
    ∧ List.Pairwise
        (fun a b => a.shadowNode.orderIndex ≤ b.shadowNode.orderIndex)
        (reorderInPlaceIfNeeded pairs)
    ∧ (∀ k : Int,
        (reorderInPlaceIfNeeded pairs).filter (fun p => p.shadowNode.orderIndex == k)
          = pairs.filter (fun p => p.shadowNode.orderIndex == k))
    ∧ ((∀ p ∈ pairs, p.shadowNode.orderIndex = 0) → reorderInPlaceIfNeeded pairs = pairs) := by
  refine ⟨reorderInPlaceIfNeeded_perm pairs, ?_, ?_, ?_⟩
  · unfold reorderInPlaceIfNeeded
    by_cases h1 : pairs.length < 2
    · rw [if_pos h1]
      match pairs, h1 with
      | [], _ => exact List.Pairwise.nil
      | [a], _ => simp
    · rw [if_neg h1]
      by_cases h2 : (!(pairs.any fun pair => pair.shadowNode.orderIndex != 0)) = true
      · rw [if_pos h2]
        simp only [Bool.not_eq_true', List.any_eq_false] at h2
        refine List.pairwise_of_forall_mem_list ?_
        intro a ha b hb
        have hza := h2 a ha
        have hzb := h2 b hb
        simp at hza hzb
        omega
      · simp only [h2, if_false, Bool.false_eq_true]
        have hs := List.sorted_mergeSort reorderLe_trans reorderLe_total pairs
        refine hs.imp ?_
        intro a b hle
        simp [shouldFirstPairComesBeforeSecondOne] at hle
        omega
  · intro k
    unfold reorderInPlaceIfNeeded
    by_cases h1 : pairs.length < 2
    · rw [if_pos h1]
    · rw [if_neg h1]
      by_cases h2 : (!(pairs.any fun pair => pair.shadowNode.orderIndex != 0)) = true
      · rw [if_pos h2]
      · simp only [h2, if_false, Bool.false_eq_true]
        set c := pairs.filter (fun p => p.shadowNode.orderIndex == k) with hc
        have hcsub : c.Sublist pairs := List.filter_sublist pairs
        have hcpair : List.Pairwise
            (fun a b => (!shouldFirstPairComesBeforeSecondOne b a) = true) c := by
          refine List.pairwise_of_forall_mem_list ?_
          intro a ha b hb
          have ha2 := List.of_mem_filter ha
          have hb2 := List.of_mem_filter hb
          simp at ha2 hb2
          simp [shouldFirstPairComesBeforeSecondOne, ha2, hb2]
        have hsub2 : c.Sublist
            (pairs.mergeSort (fun lhs rhs => !shouldFirstPairComesBeforeSecondOne rhs lhs)) :=
          List.sublist_mergeSort reorderLe_trans reorderLe_total hcpair hcsub
        have hfc : c.filter (fun p => p.shadowNode.orderIndex == k) = c := by
          refine List.filter_eq_self.mpr ?_
          intro a ha
          have ha2 : a ∈ pairs.filter (fun p => p.shadowNode.orderIndex == k) := hc ▸ ha
          exact (List.mem_filter.mp ha2).2
        have hsub3 : c.Sublist
            ((pairs.mergeSort (fun lhs rhs => !shouldFirstPairComesBeforeSecondOne rhs lhs)).filter
              (fun p => p.shadowNode.orderIndex == k)) := by
          have := List.Sublist.filter (fun p => p.shadowNode.orderIndex == k) hsub2
          rw [hfc] at this
          exact this
        have hlen : ((pairs.mergeSort
            (fun lhs rhs => !shouldFirstPairComesBeforeSecondOne rhs lhs)).filter
              (fun p => p.shadowNode.orderIndex == k)).length = c.length := by
          have hperm := (List.mergeSort_perm pairs
            (fun lhs rhs => !shouldFirstPairComesBeforeSecondOne rhs lhs)).filter
            (fun p => p.shadowNode.orderIndex == k)
          exact hperm.length_eq
        exact (hsub3.eq_of_length hlen.symm).symm
  · intro hz
    unfold reorderInPlaceIfNeeded
    by_cases h1 : pairs.length < 2
    · rw [if_pos h1]
    · rw [if_neg h1]
      have h2 : (pairs.any fun pair => pair.shadowNode.orderIndex != 0) = false := by
        rw [List.any_eq_false]
        intro p hp
        simp [hz p hp]
      rw [h2]
      simp

/-- C8 witness: on a concrete two-element all-zero list the reorder pass is
the identity. -/
theorem reorderInPlaceIfNeeded_stable_sort_witness :
    reorderInPlaceIfNeeded [⟨nA.toShadowView, nA⟩, ⟨nB.toShadowView, nB⟩]
      = [⟨nA.toShadowView, nA⟩, ⟨nB.toShadowView, nB⟩] :=
  (reorderInPlaceIfNeeded_stable_sort
    [⟨nA.toShadowView, nA⟩, ⟨nB.toShadowView, nB⟩]).2.2.2 (by decide)

/-! Claim C2: the flush order of one driver activation. -/

theorem stage3Go_removes
    (recurse : ShadowView → List ShadowViewNodePair → List ShadowViewNodePair → List ShadowViewMutation)
    (parentShadowView : ShadowView) :
    ∀ (tail : List (Nat × ShadowViewNodePair)) (m : TinyMap ShadowViewNodePair),
      (stage3Go recurse parentShadowView tail m).1
        = tail.map (fun p =>
            ShadowViewMutation.remove parentShadowView p.2.shadowView (Int.ofNat p.1)) := by
  intro tail
  induction tail with
  | nil => intro m; rfl
  | cons hd rest ih =>
    intro m
    obtain ⟨i, oldChildPair⟩ := hd
    cases hfind : m.find oldChildPair.shadowView.tag with
    | none => simp [stage3Go, hfind, ih]
    | some je =>
      obtain ⟨j, entry⟩ := je
      simp [stage3Go, hfind, ih]

theorem chain_of_remove_map (parentShadowView : ShadowView) :
    ∀ (l : List ShadowViewNodePair) (start : Nat),
      List.Chain' (fun a b => a.mutIndex < b.mutIndex)
        ((listWithIndicesFrom start l).map (fun p =>
          ShadowViewMutation.remove parentShadowView p.2.shadowView (Int.ofNat p.1))) := by
  intro l
  induction l with
  | nil => intro start; simp [listWithIndicesFrom]
  | cons a rest ih =>
    intro start
    cases rest with
    | nil => simp [listWithIndicesFrom]
    | cons b rest2 =>
      have htail := ih (start + 1)
      simp only [listWithIndicesFrom, List.map_cons] at htail ⊢
      rw [List.chain'_cons]
      refine ⟨?_, htail⟩
      simp [ShadowViewMutation.mutIndex]

/-- C2: one driver activation appends to its caller's list exactly the
concatenation, in this order, of the destructive downward list, the update
list, the remove list reversed, the delete list, the create list, the
downward list and the insert list; and the remove list carries strictly
increasing indices, so its reversal runs from the highest index to the
lowest. -/
theorem calcMut_flush_order (fuel : Nat) (parentShadowView : ShadowView)
    (oldChildPairs newChildPairs : List ShadowViewNodePair) :
    calcMut (fuel + 1) parentShadowView oldChildPairs newChildPairs
      = (calcStages (calcMut fuel) parentShadowView oldChildPairs
          newChildPairs).destructiveDownwardMutations
        ++ (calcStages (calcMut fuel) parentShadowView oldChildPairs
            newChildPairs).updateMutations
        ++ (calcStages (calcMut fuel) parentShadowView oldChildPairs
            newChildPairs).removeMutations.reverse
        ++ (calcStages (calcMut fuel) parentShadowView oldChildPairs
            newChildPairs).deleteMutations
        ++ (calcStages (calcMut fuel) parentShadowView oldChildPairs
            newChildPairs).createMutations
        ++ (calcStages (calcMut fuel) parentShadowView oldChildPairs
            newChildPairs).downwardMutations
        ++ (calcStages (calcMut fuel) parentShadowView oldChildPairs
            newChildPairs).insertMutations
    ∧ List.Chain' (fun a b => a.mutIndex < b.mutIndex)
        (calcStages (calcMut fuel) parentShadowView oldChildPairs
          newChildPairs).removeMutations := by
  constructor
  · by_cases h : oldChildPairs.length = 0 ∧ newChildPairs.length = 0
    · obtain ⟨h1, h2⟩ := h
      have ho : oldChildPairs = [] := List.length_eq_zero.mp h1
      have hn : newChildPairs = [] := List.length_eq_zero.mp h2
      subst ho
      subst hn
      rfl
    · show calcMut (fuel + 1) parentShadowView oldChildPairs newChildPairs
        = flushInOptimalOrder (calcStages (calcMut fuel) parentShadowView
            oldChildPairs newChildPairs)
      simp only [calcMut]
      rw [if_neg h]
  · show List.Chain' (fun a b => a.mutIndex < b.mutIndex)
      (calcStages (calcMut fuel) parentShadowView oldChildPairs newChildPairs).removeMutations
    have hrm : (calcStages (calcMut fuel) parentShadowView oldChildPairs
        newChildPairs).removeMutations
        = (stage3Go (calcMut fuel) parentShadowView
            (listWithIndicesFrom
              (matchedPrefixLength (reorderInPlaceIfNeeded oldChildPairs)
                (reorderInPlaceIfNeeded newChildPairs))
              ((reorderInPlaceIfNeeded oldChildPairs).drop
                (matchedPrefixLength (reorderInPlaceIfNeeded oldChildPairs)
                  (reorderInPlaceIfNeeded newChildPairs))))
            ((listWithIndicesFrom
              (matchedPrefixLength (reorderInPlaceIfNeeded oldChildPairs)
                (reorderInPlaceIfNeeded newChildPairs))
              ((reorderInPlaceIfNeeded newChildPairs).drop
                (matchedPrefixLength (reorderInPlaceIfNeeded oldChildPairs)
                  (reorderInPlaceIfNeeded newChildPairs)))).foldl
              (fun m p => m.insert (p.2.shadowView.tag, p.2)) ⟨[]⟩)).1 := rfl
    rw [hrm, stage3Go_removes]
    exact chain_of_remove_map parentShadowView _ _

/-! Claim C6: diffing a tree against itself yields no mutations. -/

theorem matchedPrefixLength_self : ∀ (l : List ShadowViewNodePair),
    matchedPrefixLength l l = l.length := by
  intro l
  induction l with
  | nil => rfl
  | cons a rest ih => simp [matchedPrefixLength, ih]

theorem zip_self_eq_map {α : Type} : ∀ (l : List α), l.zip l = l.map (fun a => (a, a)) := by
  intro l
  induction l with
  | nil => rfl
  | cons a rest ih => simp [List.zip_cons_cons, ih]

theorem stage1Go_diagonal
    (recurse : ShadowView → List ShadowViewNodePair → List ShadowViewNodePair → List ShadowViewMutation)
    (parentShadowView : ShadowView) :
    ∀ (zl : List ShadowViewNodePair) (start : Nat),
      (∀ p ∈ zl, recurse p.shadowView (sliceChildShadowNodeViewPairs p.shadowNode)
        (sliceChildShadowNodeViewPairs p.shadowNode) = []) →
      stage1Go recurse parentShadowView
        (listWithIndicesFrom start (zl.map (fun a => (a, a)))) = ([], [], []) := by
  intro zl
  induction zl with
  | nil => intro start h; rfl
  | cons a rest ih =>
    intro start h
    have ha := h a (List.mem_cons_self a rest)
    have hrest := ih (start + 1) (fun p hp => h p (List.mem_cons_of_mem a hp))
    simp only [List.map_cons, listWithIndicesFrom, stage1Go, ha, hrest, if_pos rfl]
    by_cases hlen :
        (sliceChildShadowNodeViewPairs a.shadowNode).length ≠ 0
    · simp [hlen]
    · simp [hlen]

theorem calcMut_self : ∀ (fuel : Nat) (parentShadowView : ShadowView)
    (l : List ShadowViewNodePair), pairsMeasure l + pairsMeasure l ≤ fuel →
    calcMut fuel parentShadowView l l = [] := by
  intro fuel
  induction fuel with
  | zero => intro parent l h; rfl
  | succ fuel ih =>
    intro parent l hfuel
    by_cases hl : l.length = 0
    · have : l = [] := List.length_eq_zero.mp hl
      subst this
      rfl
    · have hguard : ¬(l.length = 0 ∧ l.length = 0) := fun h => hl h.1
      simp only [calcMut]
      rw [if_neg hguard]
      set l2 := reorderInPlaceIfNeeded l with hl2
      have hL : matchedPrefixLength l2 l2 = l2.length := matchedPrefixLength_self l2
      have hs1 : stage1Go (calcMut fuel) parent
          (listWithIndicesFrom 0 ((l2.take (matchedPrefixLength l2 l2)).zip
            (l2.take (matchedPrefixLength l2 l2)))) = ([], [], []) := by
        rw [hL, List.take_length, zip_self_eq_map]
        refine stage1Go_diagonal (calcMut fuel) parent l2 0 ?_
        intro p hp
        have hpl : p ∈ l := mem_reorderInPlaceIfNeeded.mp (hl2 ▸ hp)
        have hmem : pairMeasure p ≤ pairsMeasure l := pairMeasure_le_of_mem hpl
        have hslice : pairsMeasure (sliceChildShadowNodeViewPairs p.shadowNode)
            < 3 ^ p.shadowNode.nodeSize := sliceChildShadowNodeViewPairs_measure_lt _
        refine ih p.shadowView (sliceChildShadowNodeViewPairs p.shadowNode) ?_
        have : pairMeasure p = 3 ^ p.shadowNode.nodeSize := rfl
        omega
      have hdrop : l2.drop (matchedPrefixLength l2 l2) = [] := by
        rw [hL, List.drop_length]
      show flushInOptimalOrder (calcStages (calcMut fuel) parent l l) = []
      unfold calcStages
      simp only [← hl2, hdrop, listWithIndicesFrom, hs1, List.map_nil, List.foldl_nil]
      rfl

/-- C6: for every tree, diffing it against itself returns the empty mutation
list (view equality is reflexive in the embedding, as the claim assumes). -/
theorem diffRoots_identity (T : ShadowNode) : diffRoots T T = [] := by
  show (if T.toShadowView = T.toShadowView then ([] : List ShadowViewMutation)
      else [ShadowViewMutation.update emptyShadowView T.toShadowView T.toShadowView (-1)])
    ++ calculateShadowViewMutations T.toShadowView
        (sliceChildShadowNodeViewPairs T) (sliceChildShadowNodeViewPairs T) = []
  rw [if_pos rfl, List.nil_append]
  exact calcMut_self _ _ _ (le_refl _)

/-! Claim C4: a tag present in both sibling sets gets no Create at that
parent, because the stage-3 erase suppresses the stage-4 Create. -/

theorem mem_listWithIndicesFrom_snd {α : Type} :
    ∀ (l : List α) (start : Nat) (x : Nat × α),
      x ∈ listWithIndicesFrom start l → x.2 ∈ l := by
  intro l
  induction l with
  | nil => intro start x h; simp [listWithIndicesFrom] at h
  | cons a rest ih =>
    intro start x h
    simp only [listWithIndicesFrom, List.mem_cons] at h
    rcases h with h | h
    · subst h; simp
    · exact List.mem_cons_of_mem a (ih (start + 1) x h)

theorem mem_listWithIndicesFrom_of_mem {α : Type} :
    ∀ (l : List α) (start : Nat) (a : α), a ∈ l →
      ∃ i, (i, a) ∈ listWithIndicesFrom start l := by
  intro l
  induction l with
  | nil => intro start a h; simp at h
  | cons b rest ih =>
    intro start a h
    rcases List.mem_cons.mp h with h | h
    · subst h
      exact ⟨start, by simp [listWithIndicesFrom]⟩
    · obtain ⟨i, hi⟩ := ih (start + 1) a h
      exact ⟨i, by simp [listWithIndicesFrom, hi]⟩

theorem map_listWithIndicesFrom_snd {α β : Type} (g : α → β) :
    ∀ (l : List α) (start : Nat),
      (listWithIndicesFrom start l).map (fun p => g p.2) = l.map g := by
  intro l
  induction l with
  | nil => intro start; rfl
  | cons a rest ih => intro start; simp [listWithIndicesFrom, ih]

theorem foldl_tinyMap_insert_vector :
    ∀ (tail : List (Nat × ShadowViewNodePair)) (m : TinyMap ShadowViewNodePair),
      (tail.foldl (fun m p => m.insert (p.2.shadowView.tag, p.2)) m).vector_
        = m.vector_ ++ tail.map (fun p => (p.2.shadowView.tag, p.2)) := by
  intro tail
  induction tail with
  | nil => intro m; simp
  | cons a rest ih =>
    intro m
    simp only [List.foldl_cons, List.map_cons]
    rw [ih]
    simp [TinyMap.insert]

theorem stage4Go_create_mem
    (recurse : ShadowView → List ShadowViewNodePair → List ShadowViewNodePair → List ShadowViewMutation)
    (finalMap : TinyMap ShadowViewNodePair) :
    ∀ (tail : List (Nat × ShadowViewNodePair)) (v : ShadowView),
      ShadowViewMutation.create v ∈ (stage4Go recurse finalMap tail).1 →
      ∃ x ∈ tail, v = x.2.shadowView ∧ (finalMap.find x.2.shadowView.tag).isSome = true := by
  intro tail
  induction tail with
  | nil => intro v h; simp [stage4Go] at h
  | cons hd rest ih =>
    intro v h
    obtain ⟨i, newChildPair⟩ := hd
    by_cases hsome : (finalMap.find newChildPair.shadowView.tag).isSome = true
    · simp only [stage4Go, hsome, if_true] at h
      rcases List.mem_cons.mp h with h | h
      · exact ⟨(i, newChildPair), by simp, ShadowViewMutation.create.inj h, hsome⟩
      · obtain ⟨x, hx, hveq, hfind⟩ := ih v h
        exact ⟨x, List.mem_cons_of_mem _ hx, hveq, hfind⟩
    · simp only [stage4Go, hsome, if_false, Bool.false_eq_true] at h
      obtain ⟨x, hx, hveq, hfind⟩ := ih v h
      exact ⟨x, List.mem_cons_of_mem _ hx, hveq, hfind⟩

/-- At most one (live or dead) entry of the backing vector carries the key
`t`; follows from key-list nodup and is preserved by tombstoning. -/
def TinyMapAtMostOne (t : Int) (m : TinyMap ShadowViewNodePair) : Prop :=
  ∀ (j k : Nat) (e e2 : Int × ShadowViewNodePair),
    m.vector_[j]? = some e → m.vector_[k]? = some e2 → e.1 = t → e2.1 = t → j = k

theorem tinyMapAtMostOne_of_nodup_keys {t : Int} {m : TinyMap ShadowViewNodePair}
    (h : (m.vector_.map Prod.fst).Nodup) : TinyMapAtMostOne t m := by
  intro j k e e2 hj hk he he2
  have hjlen : j < m.vector_.length := by
    by_contra hge
    rw [List.getElem?_eq_none (by omega)] at hj
    simp at hj
  have hmap : (m.vector_.map Prod.fst)[j]? = (m.vector_.map Prod.fst)[k]? := by
    rw [List.getElem?_map, List.getElem?_map, hj, hk]
    simp [he, he2]
  exact List.getElem?_inj (by simpa using hjlen) h hmap

theorem tinyMapAtMostOne_erase {t : Int} {m : TinyMap ShadowViewNodePair} (ht : t ≠ 0)
    (h : TinyMapAtMostOne t m) (jE : Nat) : TinyMapAtMostOne t (m.erase jE) := by
  intro j k e e2 hj hk he he2
  have hj2 : (tombstoneAt jE m.vector_)[j]? = some e := hj
  have hk2 : (tombstoneAt jE m.vector_)[k]? = some e2 := hk
  rw [tombstoneAt_get] at hj2 hk2
  by_cases hjE : j = jE
  · rw [if_pos hjE] at hj2
    cases hcase : m.vector_[jE]? with
    | none => rw [hcase] at hj2; simp at hj2
    | some e0 =>
      rw [hcase] at hj2
      simp at hj2
      rw [hj2.symm] at he
      simp at he
      exact absurd he.symm ht
  · rw [if_neg hjE] at hj2
    by_cases hkE : k = jE
    · rw [if_pos hkE] at hk2
      cases hcase : m.vector_[jE]? with
      | none => rw [hcase] at hk2; simp at hk2
      | some e0 =>
        rw [hcase] at hk2
        simp at hk2
        rw [hk2.symm] at he2
        simp at he2
        exact absurd he2.symm ht
    · rw [if_neg hkE] at hk2
      exact h j k e e2 hj2 hk2 he he2

theorem stage3Go_find_none_mono
    (recurse : ShadowView → List ShadowViewNodePair → List ShadowViewNodePair → List ShadowViewMutation)
    (parentShadowView : ShadowView) {t : Int} (ht : t ≠ 0) :
    ∀ (tail : List (Nat × ShadowViewNodePair)) (m : TinyMap ShadowViewNodePair),
      m.find t = none →
      ((stage3Go recurse parentShadowView tail m).2.2.2.2).find t = none := by
  intro tail
  induction tail with
  | nil => intro m h; exact h
  | cons hd rest ih =>
    intro m h
    obtain ⟨i, oldChildPair⟩ := hd
    cases hfind : m.find oldChildPair.shadowView.tag with
    | none =>
      simp only [stage3Go, hfind]
      exact ih m h
    | some je =>
      obtain ⟨j, entry⟩ := je
      simp only [stage3Go, hfind]
      exact ih (m.erase j) (TinyMap.find_none_erase ht h j)

theorem stage3Go_erases_tag
    (recurse : ShadowView → List ShadowViewNodePair → List ShadowViewNodePair → List ShadowViewMutation)
    (parentShadowView : ShadowView) {t : Int} (ht : t ≠ 0) :
    ∀ (tail : List (Nat × ShadowViewNodePair)) (m : TinyMap ShadowViewNodePair),
      TinyMapAtMostOne t m →
      (∃ x ∈ tail, x.2.shadowView.tag = t) →
      ((stage3Go recurse parentShadowView tail m).2.2.2.2).find t = none := by
  intro tail
  induction tail with
  | nil =>
    intro m hone hex
    simp at hex
  | cons hd rest ih =>
    intro m hone hex
    obtain ⟨i, oldChildPair⟩ := hd
    by_cases hhd : oldChildPair.shadowView.tag = t
    · cases hfind : m.find oldChildPair.shadowView.tag with
      | none =>
        simp only [stage3Go, hfind]
        have hnone : m.find t = none := by rw [← hhd]; exact hfind
        exact stage3Go_find_none_mono recurse parentShadowView ht rest m hnone
      | some je =>
        obtain ⟨j, entry⟩ := je
        simp only [stage3Go, hfind]
        obtain ⟨hget, hkey⟩ := TinyMap.find_some hfind
        have hkey2 : entry.1 = t := by rw [hkey, hhd]
        have hself : (m.erase j).find t = none :=
          TinyMap.find_erase_self_none ht hget
            (fun k e' hk he' => hone k j e' entry hk hget he' hkey2)
        exact stage3Go_find_none_mono recurse parentShadowView ht rest (m.erase j) hself
    · have hex2 : ∃ x ∈ rest, x.2.shadowView.tag = t := by
        rcases hex with ⟨x, hx, hxt⟩
        rcases List.mem_cons.mp hx with h | h
        · exfalso
          rw [h] at hxt
          exact hhd hxt
        · exact ⟨x, h, hxt⟩
      cases hfind : m.find oldChildPair.shadowView.tag with
      | none =>
        simp only [stage3Go, hfind]
        exact ih m hone hex2
      | some je =>
        obtain ⟨j, entry⟩ := je
        simp only [stage3Go, hfind]
        exact ih (m.erase j) (tinyMapAtMostOne_erase ht hone j) hex2

theorem matchedPrefix_tags_eq :
    ∀ (a b : List ShadowViewNodePair),
      (a.take (matchedPrefixLength a b)).map (fun p => p.shadowView.tag)
        = (b.take (matchedPrefixLength a b)).map (fun p => p.shadowView.tag) := by
  intro a
  induction a with
  | nil => intro b; simp [matchedPrefixLength]
  | cons pa resta ih =>
    intro b
    cases b with
    | nil => simp [matchedPrefixLength]
    | cons pb restb =>
      by_cases htag : pa.shadowView.tag = pb.shadowView.tag
      · simp only [matchedPrefixLength, htag, if_pos]
        simp only [List.take_succ_cons, List.map_cons, htag]
        rw [ih restb]
      · simp [matchedPrefixLength, htag]

/-- C4: at any common parent, a tag appearing in both the old and the new
sibling sets (a reinsertion or reorder) never receives a Create at that
parent: the stage-3 erase of the `insertedPairs` entry suppresses the stage-4
Create.  Stated for one driver activation, for any recursion callee, under the
well-formedness the spec guarantees (sibling tags distinct and nonzero). -/
theorem reinsertion_suppresses_create
    (recurse : ShadowView → List ShadowViewNodePair → List ShadowViewNodePair → List ShadowViewMutation)
    (parentShadowView : ShadowView)
    (oldChildPairs newChildPairs : List ShadowViewNodePair) (t : Int)
    (hOldNodup : (oldChildPairs.map (fun p => p.shadowView.tag)).Nodup)
    (hNewNodup : (newChildPairs.map (fun p => p.shadowView.tag)).Nodup)
    (hNz : t ≠ 0)
    (htOld : t ∈ oldChildPairs.map (fun p => p.shadowView.tag))
    (htNew : t ∈ newChildPairs.map (fun p => p.shadowView.tag)) :
    ∀ v : ShadowView,
      ShadowViewMutation.create v ∈
        (calcStages recurse parentShadowView oldChildPairs newChildPairs).createMutations →
      v.tag ≠ t := by
  intro v hv hvt
  set olds2 := reorderInPlaceIfNeeded oldChildPairs with holds2
  set news2 := reorderInPlaceIfNeeded newChildPairs with hnews2
  set L := matchedPrefixLength olds2 news2 with hLdef
  set newTail := listWithIndicesFrom L (news2.drop L) with hnewTail
  set oldTail := listWithIndicesFrom L (olds2.drop L) with holdTail
  set m0 : TinyMap ShadowViewNodePair :=
    newTail.foldl (fun m p => m.insert (p.2.shadowView.tag, p.2)) ⟨[]⟩ with hm0
  have hcreates :
      (calcStages recurse parentShadowView oldChildPairs newChildPairs).createMutations
        = (stage4Go recurse
            (stage3Go recurse parentShadowView oldTail m0).2.2.2.2 newTail).1 := rfl
  rw [hcreates] at hv
  obtain ⟨x, hxmem, hveq, hfindSome⟩ := stage4Go_create_mem recurse _ newTail v hv
  have hx2mem : x.2 ∈ news2.drop L := mem_listWithIndicesFrom_snd _ _ _ hxmem
  have hxtag : x.2.shadowView.tag = t := by rw [← hveq]; exact hvt
  have hNewNodup2 : (news2.map (fun p => p.shadowView.tag)).Nodup :=
    (((reorderInPlaceIfNeeded_perm newChildPairs).map
        (fun p => p.shadowView.tag)).nodup_iff).mpr hNewNodup
  have htOld2 : t ∈ olds2.map (fun p => p.shadowView.tag) :=
    (((reorderInPlaceIfNeeded_perm oldChildPairs).map
        (fun p => p.shadowView.tag)).mem_iff).mpr htOld
  have htDropNew : t ∈ (news2.drop L).map (fun p => p.shadowView.tag) :=
    hxtag ▸ List.mem_map_of_mem (fun p => p.shadowView.tag) hx2mem
  have hsplitOld : olds2.map (fun p => p.shadowView.tag)
      = (olds2.take L).map (fun p => p.shadowView.tag)
        ++ (olds2.drop L).map (fun p => p.shadowView.tag) := by
    rw [← List.map_append, List.take_append_drop]
  rw [hsplitOld] at htOld2
  rcases List.mem_append.mp htOld2 with hpre | hpost
  · have hpreNew : t ∈ (news2.take L).map (fun p => p.shadowView.tag) := by
      rw [hLdef] at hpre ⊢
      rw [← matchedPrefix_tags_eq olds2 news2]
      exact hpre
    have hsplitNew : news2.map (fun p => p.shadowView.tag)
        = (news2.take L).map (fun p => p.shadowView.tag)
          ++ (news2.drop L).map (fun p => p.shadowView.tag) := by
      rw [← List.map_append, List.take_append_drop]
    rw [hsplitNew] at hNewNodup2
    exact (List.nodup_append.mp hNewNodup2).2.2 hpreNew htDropNew
  · obtain ⟨p, hp, hptag⟩ := List.mem_map.mp hpost
    obtain ⟨iIdx, hIdxMem⟩ := mem_listWithIndicesFrom_of_mem (olds2.drop L) L p hp
    have hm0keys : m0.vector_.map Prod.fst
        = (news2.drop L).map (fun p => p.shadowView.tag) := by
      rw [hm0, foldl_tinyMap_insert_vector]
      simp only [List.nil_append, List.map_map]
      exact map_listWithIndicesFrom_snd (fun q => q.shadowView.tag) (news2.drop L) L
    have hDropNodup : ((news2.drop L).map (fun p => p.shadowView.tag)).Nodup := by
      rw [List.map_drop]
      exact (List.drop_sublist L (news2.map (fun p => p.shadowView.tag))).nodup hNewNodup2
    have hone : TinyMapAtMostOne t m0 :=
      tinyMapAtMostOne_of_nodup_keys (by rw [hm0keys]; exact hDropNodup)
    have hnone := stage3Go_erases_tag recurse parentShadowView hNz oldTail m0 hone
      ⟨(iIdx, p), hIdxMem, hptag⟩
    rw [hxtag, hnone] at hfindSome
    simp at hfindSome

/-- C4 witness: the theorem applied at a concrete reorder-with-one-new-child
scenario — tag 1 (child A) appears in both sibling sets, a genuinely new child
with tag 4 is created, and the theorem yields that the created view's tag is
not the reinserted tag 1. -/
theorem reinsertion_suppresses_create_witness :
    (ShadowView.mk 4 0 ⟨0, 0⟩).tag ≠ 1 :=
  reinsertion_suppresses_create (calcMut 0) (ShadowView.mk 9 0 ⟨0, 0⟩)
    [⟨nA.toShadowView, nA⟩, ⟨nBold.toShadowView, nBold⟩]
    [⟨nBnew.toShadowView, nBnew⟩, ⟨nA.toShadowView, nA⟩,
     ⟨ShadowView.mk 4 0 ⟨0, 0⟩, ShadowNode.mk 4 0 0 ⟨0, 0⟩ true true .nil⟩]
    1 (by decide) (by decide) (by decide) (by decide) (by decide)
    (ShadowView.mk 4 0 ⟨0, 0⟩) (by decide)

/-! Claim C5: the prepend scenario.  The spec expects only
`Create(B), Insert(P, B, 0)`, but stage 1 stops at the very first index
because the tags A and B differ there, so A is also removed from index 0 and
reinserted at index 1. -/

/-- C5 counterexample: on `Old = P[A]`, `New = P[B, A]` the emitted list is
not the two-mutation list the claim states, and a mutation mentioning A (tag
1) is emitted. -/
theorem diffRoots_prepend_not_two_mutations :
    diffRoots nPold nPnew ≠
      [.create nB.toShadowView, .insert nPold.toShadowView nB.toShadowView 0]
    ∧ (diffRoots nPold nPnew).any (fun m => m.touchesTag 1) = true := by
  refine ⟨by decide, by decide⟩

/-- C5 as amended: on `Old = P[A]`, `New = P[B, A]` the differentiator emits
exactly `Remove(P, A, 0), Create(B), Insert(P, B, 0), Insert(P, A, 1)`: B is
created and inserted at index 0, and A — because stage 1 stops at the first
tag mismatch — is removed from index 0 and reinserted at index 1, with no
Create, Delete or Update for A. -/
theorem diffRoots_prepend_scenario :
    diffRoots nPold nPnew =
      [.remove nPold.toShadowView nA.toShadowView 0,
       .create nB.toShadowView,
       .insert nPold.toShadowView nB.toShadowView 0,
       .insert nPold.toShadowView nA.toShadowView 1] := by decide

/-! Claim C1: coverage fails on the code.  In the reorder scenario
`Old = P[A, B[X]]`, `New = P[B[X(changed)], A]`, stage 3 finds B reinserted
and compares the pairs, but pair equality only compares the views, so the
changed subtree under B is never diffed: no mutation touches X although the
two flattened projections differ at X. -/

/-- C1, evaluation at the failing input: the emitted list consists only of
the reorder mutations for A and B, no mutation touches X (tag 3), yet the
flattened child layers of the two B generations differ (X's props changed).
Applying the four emitted mutations to a host tree matching Old's projection
therefore cannot produce New's projection: X keeps its old props. -/
theorem diffRoots_coverage_failing_input :
    diffRoots nQold nQnew =
      [.remove nQold.toShadowView nBold.toShadowView 1,
       .remove nQold.toShadowView nA.toShadowView 0,
       .insert nQold.toShadowView nBnew.toShadowView 0,
       .insert nQold.toShadowView nA.toShadowView 1]
    ∧ (diffRoots nQold nQnew).all (fun m => !(m.touchesTag 3)) = true
    ∧ (sliceChildShadowNodeViewPairs nBold).map ShadowViewNodePair.shadowView
      ≠ (sliceChildShadowNodeViewPairs nBnew).map ShadowViewNodePair.shadowView := by
  refine ⟨by decide, by decide, by decide⟩

/-! Claim C3 infrastructure: create-before-insert. -/

theorem append_eq_append_cons_split {α : Type} {m : α} :
    ∀ {X Y l1 l2 : List α}, X ++ Y = l1 ++ m :: l2 →
      (∃ l2a, X = l1 ++ m :: l2a ∧ l2 = l2a ++ Y)
      ∨ (∃ l1b, l1 = X ++ l1b ∧ Y = l1b ++ m :: l2) := by
  intro X
  induction X with
  | nil =>
    intro Y l1 l2 h
    right
    exact ⟨l1, by simp, by simpa using h⟩
  | cons x X2 ih =>
    intro Y l1 l2 h
    cases l1 with
    | nil =>
      simp at h
      left
      exact ⟨X2, by simp [h.1], by simp [h.2]⟩
    | cons a l1c =>
      simp only [List.cons_append, List.cons.injEq] at h
      obtain ⟨hxa, hrest⟩ := h
      rcases ih hrest with ⟨l2a, hX2, hl2⟩ | ⟨l1b, hl1c, hY⟩
      · left
        exact ⟨l2a, by simp [hxa, hX2], hl2⟩
      · right
        exact ⟨l1b, by simp [hxa, hl1c], hY⟩

theorem cbir_nil (avail : List ShadowViewMutation) (escape : Int → Prop) :
    createBeforeInsertRel avail [] escape := by
  intro l1 l2 pv v i h
  exact absurd h (by simp)

theorem cbir_of_no_insert {l : List ShadowViewMutation}
    (h : ∀ (pv v : ShadowView) (i : Int), ShadowViewMutation.insert pv v i ∉ l)
    (avail : List ShadowViewMutation) (escape : Int → Prop) :
    createBeforeInsertRel avail l escape := by
  intro l1 l2 pv v i heq
  exfalso
  refine h pv v i ?_
  rw [heq]
  exact List.mem_append.mpr (Or.inr (List.mem_cons_self _ _))

theorem cbir_append {X Y : List ShadowViewMutation} {avail : List ShadowViewMutation}
    {escape : Int → Prop} (hX : createBeforeInsertRel avail X escape)
    (hY : createBeforeInsertRel (avail ++ X) Y escape) :
    createBeforeInsertRel avail (X ++ Y) escape := by
  intro l1 l2 pv v i heq
  rcases append_eq_append_cons_split heq with ⟨l2a, hXeq, _⟩ | ⟨l1b, hl1, hYeq⟩
  · exact hX l1 l2a pv v i hXeq
  · rcases hY l1b l2 pv v i hYeq with hmem | hesc
    · left
      rw [hl1, ← List.append_assoc]
      exact hmem
    · right
      exact hesc

theorem cbir_grow_avail {X : List ShadowViewMutation} {escape : Int → Prop}
    (avail : List ShadowViewMutation)
    (h : createBeforeInsertRel [] X escape) :
    createBeforeInsertRel avail X escape := by
  intro l1 l2 pv v i heq
  rcases h l1 l2 pv v i heq with hmem | hesc
  · left
    rw [List.nil_append] at hmem
    exact List.mem_append.mpr (Or.inr hmem)
  · right
    exact hesc

theorem cbir_mono_escape {X : List ShadowViewMutation} {avail : List ShadowViewMutation}
    {escape escape2 : Int → Prop} (himp : ∀ t, escape t → escape2 t)
    (h : createBeforeInsertRel avail X escape) :
    createBeforeInsertRel avail X escape2 := by
  intro l1 l2 pv v i heq
  rcases h l1 l2 pv v i heq with hmem | hesc
  · left; exact hmem
  · right; exact himp _ hesc

theorem not_tagInProjection_nil (t : Int) : ¬ TagInProjection t [] := by
  intro h
  cases h with
  | here _ p hp _ => simp at hp
  | deeper _ p hp _ => simp at hp

theorem tagInProjection_of_mem {t : Int} {l l2 : List ShadowViewNodePair}
    (hsub : ∀ p ∈ l2, p ∈ l) (h : TagInProjection t l2) : TagInProjection t l := by
  cases h with
  | here _ p hp htag => exact TagInProjection.here t l p (hsub p hp) htag
  | deeper _ p hp hdeep => exact TagInProjection.deeper t l p (hsub p hp) hdeep

mutual
theorem sliceChildPairsOfChild_wellTagged (layoutOffset : Point) (c : ShadowNode)
    (h : c.allTagsNonzero = true) :
    pairsWellTagged (sliceChildPairsOfChild layoutOffset c) :=
  match c with
  | .mk t p oi origin fv fsc cs => by
    have hsplit : (t != 0) = true ∧ ShadowNodeList.allTagsNonzero cs = true := by
      have h2 : ((t != 0) && ShadowNodeList.allTagsNonzero cs) = true := h
      simpa using h2
    have ht : t ≠ 0 := by simpa using hsplit.1
    have hrec := sliceChildPairsOfList_wellTagged
      (Point.add origin layoutOffset) cs hsplit.2
    intro q hq
    cases fsc with
    | true =>
      simp only [sliceChildPairsOfChild, if_true, List.mem_singleton] at hq
      subst hq
      exact ⟨ht, h⟩
    | false =>
      simp only [sliceChildPairsOfChild, Bool.false_eq_true, if_false] at hq
      rcases List.mem_append.mp hq with hq | hq
      · cases fv with
        | true =>
          simp only [if_true, List.mem_singleton] at hq
          subst hq
          exact ⟨ht, h⟩
        | false => simp at hq
      · exact hrec q hq

theorem sliceChildPairsOfList_wellTagged (layoutOffset : Point) (l : ShadowNodeList)
    (h : l.allTagsNonzero = true) :
    pairsWellTagged (sliceChildPairsOfList layoutOffset l) :=
  match l with
  | .nil => by intro q hq; simp [sliceChildPairsOfList] at hq
  | .cons c cs => by
    have hsplit : c.allTagsNonzero = true ∧ ShadowNodeList.allTagsNonzero cs = true := by
      have h2 : (c.allTagsNonzero && ShadowNodeList.allTagsNonzero cs) = true := h
      simpa using h2
    intro q hq
    rcases List.mem_append.mp hq with hq | hq
    · exact sliceChildPairsOfChild_wellTagged layoutOffset c hsplit.1 q hq
    · exact sliceChildPairsOfList_wellTagged layoutOffset cs hsplit.2 q hq
end

theorem sliceChildShadowNodeViewPairs_wellTagged {n : ShadowNode}
    (h : n.allTagsNonzero = true) :
    pairsWellTagged (sliceChildShadowNodeViewPairs n) := by
  unfold sliceChildShadowNodeViewPairs
  by_cases hguard : (!n.formsStackingContext && n.formsView) = true
  · rw [if_pos hguard]
    intro q hq
    simp at hq
  · rw [if_neg hguard]
    unfold sliceChildShadowNodeViewPairsRecursively
    refine sliceChildPairsOfList_wellTagged ⟨0, 0⟩ n.children ?_
    cases n with
    | mk t p oi o fv fsc cs =>
      have h2 : ((t != 0) && ShadowNodeList.allTagsNonzero cs) = true := h
      exact (by simpa using h2 : (t != 0) = true ∧ ShadowNodeList.allTagsNonzero cs = true).2

theorem pairsWellTagged_of_perm {l l2 : List ShadowViewNodePair}
    (hperm : List.Perm l l2) (h : pairsWellTagged l2) : pairsWellTagged l :=
  fun p hp => h p (hperm.mem_iff.mp hp)

theorem tinyMap_find_empty {α : Type} (key : Int) :
    (TinyMap.mk ([] : List (Int × α))).find key = none := rfl

theorem reorderInPlaceIfNeeded_nil : reorderInPlaceIfNeeded [] = [] := rfl

theorem matchedPrefixLength_nil_right :
    ∀ (l : List ShadowViewNodePair), matchedPrefixLength l [] = 0 := by
  intro l
  cases l with
  | nil => rfl
  | cons a rest => rfl

theorem stage3Go_empty_map
    (recurse : ShadowView → List ShadowViewNodePair → List ShadowViewNodePair → List ShadowViewMutation)
    (parentShadowView : ShadowView) :
    ∀ (tail : List (Nat × ShadowViewNodePair)),
      stage3Go recurse parentShadowView tail (TinyMap.mk [])
        = (tail.map (fun p =>
            ShadowViewMutation.remove parentShadowView p.2.shadowView (Int.ofNat p.1)),
          tail.map (fun p => ShadowViewMutation.delete p.2.shadowView),
          [],
          (tail.map (fun p =>
            recurse p.2.shadowView (sliceChildShadowNodeViewPairs p.2.shadowNode) [])).join,
          TinyMap.mk []) := by
  intro tail
  induction tail with
  | nil => rfl
  | cons hd rest ih =>
    obtain ⟨i, o⟩ := hd
    simp only [stage3Go, tinyMap_find_empty, ih, List.map_cons, List.join, List.flatten_cons]

theorem calcMut_news_nil_no_insert :
    ∀ (fuel : Nat) (parentShadowView : ShadowView) (olds : List ShadowViewNodePair)
      (pv v : ShadowView) (i : Int),
      ShadowViewMutation.insert pv v i ∉ calcMut fuel parentShadowView olds [] := by
  intro fuel
  induction fuel with
  | zero => intro parent olds pv v i h; simp [calcMut] at h
  | succ fuel ih =>
    intro parent olds pv v i h
    by_cases holds : olds.length = 0
    · have : olds = [] := List.length_eq_zero.mp holds
      subst this
      simp [calcMut] at h
    · have hguard : ¬(olds.length = 0 ∧ ([] : List ShadowViewNodePair).length = 0) :=
        fun hc => holds hc.1
      rw [show calcMut (fuel + 1) parent olds []
          = flushInOptimalOrder (calcStages (calcMut fuel) parent olds []) from by
        simp only [calcMut]
        rw [if_neg hguard]] at h
      simp only [calcStages, reorderInPlaceIfNeeded_nil, matchedPrefixLength_nil_right,
        List.take_zero, List.zip_nil_right, List.drop_zero, List.drop_nil,
        listWithIndicesFrom, List.foldl_nil, stage3Go_empty_map, stage1Go,
        flushInOptimalOrder] at h
      simp only [stage4Go, List.append_nil, List.nil_append] at h
      rcases List.mem_append.mp h with h | h
      swap
      · simp at h
      rcases List.mem_append.mp h with h | h
      swap
      · obtain ⟨x, hx, hxe⟩ := List.mem_map.mp h
        simp at hxe
      rcases List.mem_append.mp h with h | h
      · obtain ⟨sub, hsub, hxin⟩ := List.mem_join.mp h
        obtain ⟨x, hx, hxe⟩ := List.mem_map.mp hsub
        rw [← hxe] at hxin
        exact ih x.2.shadowView (sliceChildShadowNodeViewPairs x.2.shadowNode) pv v i hxin
      · obtain ⟨x, hx, hxe⟩ := List.mem_map.mp (List.mem_reverse.mp h)
        simp at hxe

theorem stage1Go_updates_no_insert
    (recurse : ShadowView → List ShadowViewNodePair → List ShadowViewNodePair → List ShadowViewMutation)
    (parentShadowView : ShadowView) :
    ∀ (aligned : List (Nat × ShadowViewNodePair × ShadowViewNodePair)) (pv v : ShadowView) (i : Int),
      ShadowViewMutation.insert pv v i ∉ (stage1Go recurse parentShadowView aligned).1 := by
  intro aligned
  induction aligned with
  | nil => intro pv v i h; simp [stage1Go] at h
  | cons hd rest ih =>
    intro pv v i h
    obtain ⟨k, o, n⟩ := hd
    simp only [stage1Go] at h
    rcases List.mem_append.mp h with h | h
    · by_cases hv : o.shadowView = n.shadowView
      · rw [if_pos hv] at h
        simp at h
      · rw [if_neg hv] at h
        simp at h
    · exact ih pv v i h

theorem stage1Go_destr_no_insert
    (recurse : ShadowView → List ShadowViewNodePair → List ShadowViewNodePair → List ShadowViewMutation)
    (parentShadowView : ShadowView)
    (hrec : ∀ (pv2 : ShadowView) (olds2 : List ShadowViewNodePair) (pv v : ShadowView) (i : Int),
      ShadowViewMutation.insert pv v i ∉ recurse pv2 olds2 []) :
    ∀ (aligned : List (Nat × ShadowViewNodePair × ShadowViewNodePair)) (pv v : ShadowView) (i : Int),
      ShadowViewMutation.insert pv v i ∉ (stage1Go recurse parentShadowView aligned).2.2 := by
  intro aligned
  induction aligned with
  | nil => intro pv v i h; simp [stage1Go] at h
  | cons hd rest ih =>
    intro pv v i h
    obtain ⟨k, o, n⟩ := hd
    simp only [stage1Go] at h
    rcases List.mem_append.mp h with h | h
    · by_cases hlen : (sliceChildShadowNodeViewPairs n.shadowNode).length ≠ 0
      · rw [if_pos hlen] at h
        simp at h
      · rw [if_neg hlen] at h
        have hnil : sliceChildShadowNodeViewPairs n.shadowNode = [] := by
          push_neg at hlen
          exact List.length_eq_zero.mp hlen
        rw [hnil] at h
        exact hrec o.shadowView (sliceChildShadowNodeViewPairs o.shadowNode) pv v i h
    · exact ih pv v i h

theorem stage1Go_down_cbir
    (recurse : ShadowView → List ShadowViewNodePair → List ShadowViewNodePair → List ShadowViewMutation)
    (parentShadowView : ShadowView) {escape : Int → Prop} :
    ∀ (aligned : List (Nat × ShadowViewNodePair × ShadowViewNodePair)),
      (∀ x ∈ aligned, createBeforeInsertRel []
        (recurse x.2.1.shadowView (sliceChildShadowNodeViewPairs x.2.1.shadowNode)
          (sliceChildShadowNodeViewPairs x.2.2.shadowNode)) escape) →
      ∀ avail, createBeforeInsertRel avail (stage1Go recurse parentShadowView aligned).2.1 escape := by
  intro aligned
  induction aligned with
  | nil =>
    intro hyp avail
    exact cbir_nil avail escape
  | cons hd rest ih =>
    intro hyp avail
    obtain ⟨k, o, n⟩ := hd
    show createBeforeInsertRel avail
      ((if (sliceChildShadowNodeViewPairs n.shadowNode).length ≠ 0 then
          (recurse o.shadowView (sliceChildShadowNodeViewPairs o.shadowNode)
            (sliceChildShadowNodeViewPairs n.shadowNode), ([] : List ShadowViewMutation))
        else ([], recurse o.shadowView (sliceChildShadowNodeViewPairs o.shadowNode)
            (sliceChildShadowNodeViewPairs n.shadowNode))).1
        ++ (stage1Go recurse parentShadowView rest).2.1) escape
    have hhead := hyp (k, o, n) (List.mem_cons_self _ _)
    have hrest := ih (fun x hx => hyp x (List.mem_cons_of_mem _ hx))
    by_cases hlen : (sliceChildShadowNodeViewPairs n.shadowNode).length ≠ 0
    · rw [if_pos hlen]
      exact cbir_append (cbir_grow_avail avail hhead) (hrest _)
    · rw [if_neg hlen]
      exact cbir_append (cbir_nil avail escape) (hrest _)

theorem stage3Go_deletes_no_insert
    (recurse : ShadowView → List ShadowViewNodePair → List ShadowViewNodePair → List ShadowViewMutation)
    (parentShadowView : ShadowView) :
    ∀ (tail : List (Nat × ShadowViewNodePair)) (m : TinyMap ShadowViewNodePair)
      (pv v : ShadowView) (i : Int),
      ShadowViewMutation.insert pv v i ∉ (stage3Go recurse parentShadowView tail m).2.1 := by
  intro tail
  induction tail with
  | nil => intro m pv v i h; simp [stage3Go] at h
  | cons hd rest ih =>
    intro m pv v i h
    obtain ⟨k, o⟩ := hd
    cases hfind : m.find o.shadowView.tag with
    | none =>
      simp only [stage3Go, hfind] at h
      rcases List.mem_cons.mp h with h | h
      · simp at h
      · exact ih m pv v i h
    | some je =>
      obtain ⟨j, entry⟩ := je
      simp only [stage3Go, hfind] at h
      exact ih (m.erase j) pv v i h

theorem stage3Go_destr_no_insert
    (recurse : ShadowView → List ShadowViewNodePair → List ShadowViewNodePair → List ShadowViewMutation)
    (parentShadowView : ShadowView)
    (hrec : ∀ (pv2 : ShadowView) (olds2 : List ShadowViewNodePair) (pv v : ShadowView) (i : Int),
      ShadowViewMutation.insert pv v i ∉ recurse pv2 olds2 []) :
    ∀ (tail : List (Nat × ShadowViewNodePair)) (m : TinyMap ShadowViewNodePair)
      (pv v : ShadowView) (i : Int),
      ShadowViewMutation.insert pv v i ∉ (stage3Go recurse parentShadowView tail m).2.2.2.1 := by
  intro tail
  induction tail with
  | nil => intro m pv v i h; simp [stage3Go] at h
  | cons hd rest ih =>
    intro m pv v i h
    obtain ⟨k, o⟩ := hd
    cases hfind : m.find o.shadowView.tag with
    | none =>
      simp only [stage3Go, hfind] at h
      rcases List.mem_append.mp h with h | h
      · exact hrec o.shadowView (sliceChildShadowNodeViewPairs o.shadowNode) pv v i h
      · exact ih m pv v i h
    | some je =>
      obtain ⟨j, entry⟩ := je
      simp only [stage3Go, hfind] at h
      rcases List.mem_append.mp h with h | h
      · by_cases hvq : entry.2.viewEq o
        · rw [if_pos hvq] at h
          simp at h
        · rw [if_neg hvq] at h
          by_cases hlen : (sliceChildShadowNodeViewPairs entry.2.shadowNode).length ≠ 0
          · rw [if_pos hlen] at h
            simp at h
          · rw [if_neg hlen] at h
            have hnil : sliceChildShadowNodeViewPairs entry.2.shadowNode = [] := by
              push_neg at hlen
              exact List.length_eq_zero.mp hlen
            simp only at h
            rw [hnil] at h
            exact hrec entry.2.shadowView
              (sliceChildShadowNodeViewPairs o.shadowNode) pv v i h
      · exact ih (m.erase j) pv v i h

theorem stage3Go_down_cbir
    (recurse : ShadowView → List ShadowViewNodePair → List ShadowViewNodePair → List ShadowViewMutation)
    (parentShadowView : ShadowView) {escape : Int → Prop} :
    ∀ (tail : List (Nat × ShadowViewNodePair)) (m : TinyMap ShadowViewNodePair),
      (∀ x ∈ tail, ∀ np ∈ m.vector_.map Prod.snd,
        createBeforeInsertRel []
          (recurse np.shadowView (sliceChildShadowNodeViewPairs x.2.shadowNode)
            (sliceChildShadowNodeViewPairs np.shadowNode)) escape) →
      ∀ avail, createBeforeInsertRel avail
        (stage3Go recurse parentShadowView tail m).2.2.1 escape := by
  intro tail
  induction tail with
  | nil =>
    intro m hyp avail
    exact cbir_nil avail escape
  | cons hd rest ih =>
    intro m hyp avail
    obtain ⟨k, o⟩ := hd
    cases hfind : m.find o.shadowView.tag with
    | none =>
      show createBeforeInsertRel avail
        (stage3Go recurse parentShadowView ((k, o) :: rest) m).2.2.1 escape
      simp only [stage3Go, hfind]
      exact ih m (fun x hx => hyp x (List.mem_cons_of_mem _ hx)) avail
    | some je =>
      obtain ⟨j, entry⟩ := je
      show createBeforeInsertRel avail
        (stage3Go recurse parentShadowView ((k, o) :: rest) m).2.2.1 escape
      simp only [stage3Go, hfind]
      have hentry : entry ∈ m.vector_ :=
        List.getElem?_mem (TinyMap.find_some hfind).1
      have hnp : entry.2 ∈ m.vector_.map Prod.snd := List.mem_map_of_mem Prod.snd hentry
      have hhead := hyp (k, o) (List.mem_cons_self _ _) entry.2 hnp
      have hvals : (m.erase j).vector_.map Prod.snd = m.vector_.map Prod.snd :=
        tombstoneAt_map_snd m.vector_ j
      have hrest := ih (m.erase j)
        (fun x hx np hnp2 => hyp x (List.mem_cons_of_mem _ hx) np (hvals ▸ hnp2))
      refine cbir_append ?_ (hrest _)
      by_cases hvq : entry.2.viewEq o
      · rw [if_pos hvq]
        exact cbir_nil avail escape
      · rw [if_neg hvq]
        by_cases hlen : (sliceChildShadowNodeViewPairs entry.2.shadowNode).length ≠ 0
        · rw [if_pos hlen]
          exact cbir_grow_avail avail hhead
        · rw [if_neg hlen]
          exact cbir_nil avail escape

theorem stage4Go_creates_no_insert
    (recurse : ShadowView → List ShadowViewNodePair → List ShadowViewNodePair → List ShadowViewMutation)
    (finalMap : TinyMap ShadowViewNodePair) :
    ∀ (tail : List (Nat × ShadowViewNodePair)) (pv v : ShadowView) (i : Int),
      ShadowViewMutation.insert pv v i ∉ (stage4Go recurse finalMap tail).1 := by
  intro tail
  induction tail with
  | nil => intro pv v i h; simp [stage4Go] at h
  | cons hd rest ih =>
    intro pv v i h
    obtain ⟨k, n⟩ := hd
    by_cases hsome : (finalMap.find n.shadowView.tag).isSome = true
    · simp only [stage4Go, hsome, if_true] at h
      rcases List.mem_cons.mp h with h | h
      · simp at h
      · exact ih pv v i h
    · simp only [stage4Go, hsome, if_false, Bool.false_eq_true] at h
      exact ih pv v i h

theorem stage4Go_down_cbir
    (recurse : ShadowView → List ShadowViewNodePair → List ShadowViewNodePair → List ShadowViewMutation)
    (finalMap : TinyMap ShadowViewNodePair) {escape : Int → Prop} :
    ∀ (tail : List (Nat × ShadowViewNodePair)),
      (∀ x ∈ tail, createBeforeInsertRel []
        (recurse x.2.shadowView [] (sliceChildShadowNodeViewPairs x.2.shadowNode)) escape) →
      ∀ avail, createBeforeInsertRel avail (stage4Go recurse finalMap tail).2 escape := by
  intro tail
  induction tail with
  | nil =>
    intro hyp avail
    exact cbir_nil avail escape
  | cons hd rest ih =>
    intro hyp avail
    obtain ⟨k, n⟩ := hd
    have hhead := hyp (k, n) (List.mem_cons_self _ _)
    have hrest := ih (fun x hx => hyp x (List.mem_cons_of_mem _ hx))
    by_cases hsome : (finalMap.find n.shadowView.tag).isSome = true
    · show createBeforeInsertRel avail
        (stage4Go recurse finalMap ((k, n) :: rest)).2 escape
      simp only [stage4Go, hsome, if_true]
      exact cbir_append (cbir_grow_avail avail hhead) (hrest _)
    · show createBeforeInsertRel avail
        (stage4Go recurse finalMap ((k, n) :: rest)).2 escape
      simp only [stage4Go, hsome, if_false, Bool.false_eq_true]
      exact hrest avail

theorem stage4Go_create_of_mem
    (recurse : ShadowView → List ShadowViewNodePair → List ShadowViewNodePair → List ShadowViewMutation)
    (finalMap : TinyMap ShadowViewNodePair) :
    ∀ (tail : List (Nat × ShadowViewNodePair)) (x : Nat × ShadowViewNodePair),
      x ∈ tail → (finalMap.find x.2.shadowView.tag).isSome = true →
      ShadowViewMutation.create x.2.shadowView ∈ (stage4Go recurse finalMap tail).1 := by
  intro tail
  induction tail with
  | nil => intro x hx; simp at hx
  | cons hd rest ih =>
    intro x hx hsome
    obtain ⟨k, n⟩ := hd
    rcases List.mem_cons.mp hx with hx | hx
    · subst hx
      simp only [stage4Go, hsome, if_true]
      exact List.mem_cons_self _ _
    · by_cases hsome2 : (finalMap.find n.shadowView.tag).isSome = true
      · simp only [stage4Go, hsome2, if_true]
        exact List.mem_cons_of_mem _ (ih x hx hsome)
      · simp only [stage4Go, hsome2, if_false, Bool.false_eq_true]
        exact ih x hx hsome

theorem stage3Go_final_none_source
    (recurse : ShadowView → List ShadowViewNodePair → List ShadowViewNodePair → List ShadowViewMutation)
    (parentShadowView : ShadowView) {t : Int} (ht : t ≠ 0) :
    ∀ (tail : List (Nat × ShadowViewNodePair)) (m : TinyMap ShadowViewNodePair),
      ((stage3Go recurse parentShadowView tail m).2.2.2.2).find t = none →
      m.find t = none ∨ ∃ x ∈ tail, x.2.shadowView.tag = t := by
  intro tail
  induction tail with
  | nil => intro m h; exact Or.inl h
  | cons hd rest ih =>
    intro m h
    obtain ⟨k, o⟩ := hd
    cases hfind : m.find o.shadowView.tag with
    | none =>
      simp only [stage3Go, hfind] at h
      rcases ih m h with h2 | ⟨x, hx, hxt⟩
      · exact Or.inl h2
      · exact Or.inr ⟨x, List.mem_cons_of_mem _ hx, hxt⟩
    | some je =>
      obtain ⟨j, entry⟩ := je
      simp only [stage3Go, hfind] at h
      rcases ih (m.erase j) h with h2 | ⟨x, hx, hxt⟩
      · by_cases hto : o.shadowView.tag = t
        · exact Or.inr ⟨(k, o), List.mem_cons_self _ _, hto⟩
        · obtain ⟨hget, hkey⟩ := TinyMap.find_some hfind
          have hne : entry.1 ≠ t := by rw [hkey]; exact hto
          rw [TinyMap.find_erase_of_ne ht hget hne] at h2
          exact Or.inl h2
      · exact Or.inr ⟨x, List.mem_cons_of_mem _ hx, hxt⟩


theorem flushInOptimalOrder_cbir (P : ShadowViewMutationParts) (escape : Int → Prop)
    (hdestr : ∀ avail, createBeforeInsertRel avail P.destructiveDownwardMutations escape)
    (hupd : ∀ avail, createBeforeInsertRel avail P.updateMutations escape)
    (hrem : ∀ avail, createBeforeInsertRel avail P.removeMutations.reverse escape)
    (hdel : ∀ avail, createBeforeInsertRel avail P.deleteMutations escape)
    (hcre : ∀ avail, createBeforeInsertRel avail P.createMutations escape)
    (hdown : ∀ avail, createBeforeInsertRel avail P.downwardMutations escape)
    (hins : ∀ avail, (∀ x ∈ P.createMutations, x ∈ avail) →
      createBeforeInsertRel avail P.insertMutations escape) :
    createBeforeInsertRel [] (flushInOptimalOrder P) escape := by
  unfold flushInOptimalOrder
  refine cbir_append (cbir_append (cbir_append (cbir_append (cbir_append
    (cbir_append (hdestr _) (hupd _)) (hrem _)) (hdel _)) (hcre _)) (hdown _))
    (hins _ ?_)
  intro x hx
  rw [List.nil_append]
  exact List.mem_append.mpr (Or.inl (List.mem_append.mpr (Or.inr hx)))

theorem calcMut_create_before_insert :
    ∀ (fuel : Nat) (parentShadowView : ShadowView)
      (olds news : List ShadowViewNodePair),
      pairsMeasure olds + pairsMeasure news ≤ fuel →
      pairsWellTagged news →
      createBeforeInsertRel [] (calcMut fuel parentShadowView olds news)
        (fun t => TagInProjection t olds) := by
  intro fuel
  induction fuel with
  | zero =>
    intro parent olds news hm hw
    exact cbir_nil [] _
  | succ fuel ih =>
    intro parent olds news hm hw
    by_cases hguard : olds.length = 0 ∧ news.length = 0
    · rw [show calcMut (fuel + 1) parent olds news = [] from by
        simp only [calcMut]
        rw [if_pos hguard]]
      exact cbir_nil [] _
    · rw [show calcMut (fuel + 1) parent olds news
          = flushInOptimalOrder (calcStages (calcMut fuel) parent olds news) from by
        simp only [calcMut]
        rw [if_neg hguard]]
      set olds2 := reorderInPlaceIfNeeded olds with holds2
      set news2 := reorderInPlaceIfNeeded news with hnews2
      set L := matchedPrefixLength olds2 news2 with hLdef
      set aligned := listWithIndicesFrom 0 ((olds2.take L).zip (news2.take L)) with haligned
      set newTail := listWithIndicesFrom L (news2.drop L) with hnewTail
      set oldTail := listWithIndicesFrom L (olds2.drop L) with holdTail
      set m0 : TinyMap ShadowViewNodePair :=
        newTail.foldl (fun m p => m.insert (p.2.shadowView.tag, p.2)) ⟨[]⟩ with hm0
      have hMolds : pairsMeasure olds2 = pairsMeasure olds :=
        pairsMeasure_reorderInPlaceIfNeeded olds
      have hMnews : pairsMeasure news2 = pairsMeasure news :=
        pairsMeasure_reorderInPlaceIfNeeded news
      have hnoins := calcMut_news_nil_no_insert fuel
      have hPdestr : (calcStages (calcMut fuel) parent olds news).destructiveDownwardMutations
          = (stage1Go (calcMut fuel) parent aligned).2.2
            ++ (stage3Go (calcMut fuel) parent oldTail m0).2.2.2.1 := rfl
      have hPupd : (calcStages (calcMut fuel) parent olds news).updateMutations
          = (stage1Go (calcMut fuel) parent aligned).1 := rfl
      have hPrem : (calcStages (calcMut fuel) parent olds news).removeMutations
          = (stage3Go (calcMut fuel) parent oldTail m0).1 := rfl
      have hPdel : (calcStages (calcMut fuel) parent olds news).deleteMutations
          = (stage3Go (calcMut fuel) parent oldTail m0).2.1 := rfl
      have hPcre : (calcStages (calcMut fuel) parent olds news).createMutations
          = (stage4Go (calcMut fuel)
              (stage3Go (calcMut fuel) parent oldTail m0).2.2.2.2 newTail).1 := rfl
      have hPdown : (calcStages (calcMut fuel) parent olds news).downwardMutations
          = ((stage1Go (calcMut fuel) parent aligned).2.1
              ++ (stage3Go (calcMut fuel) parent oldTail m0).2.2.1)
            ++ (stage4Go (calcMut fuel)
                (stage3Go (calcMut fuel) parent oldTail m0).2.2.2.2 newTail).2 := rfl
      have hPins : (calcStages (calcMut fuel) parent olds news).insertMutations
          = newTail.map (fun p =>
              ShadowViewMutation.insert parent p.2.shadowView (Int.ofNat p.1)) := rfl
      refine flushInOptimalOrder_cbir _ _ ?_ ?_ ?_ ?_ ?_ ?_ ?_
      · intro avail
        rw [hPdestr]
        refine cbir_of_no_insert ?_ avail _
        intro pv v i hmem
        rcases List.mem_append.mp hmem with hmem | hmem
        · exact stage1Go_destr_no_insert (calcMut fuel) parent
            (fun a b => hnoins a b) aligned pv v i hmem
        · exact stage3Go_destr_no_insert (calcMut fuel) parent
            (fun a b => hnoins a b) oldTail m0 pv v i hmem
      · intro avail
        rw [hPupd]
        refine cbir_of_no_insert ?_ avail _
        intro pv v i hmem
        exact stage1Go_updates_no_insert (calcMut fuel) parent aligned pv v i hmem
      · intro avail
        rw [hPrem, stage3Go_removes]
        refine cbir_of_no_insert ?_ avail _
        intro pv v i hmem
        obtain ⟨x, hx, hxe⟩ := List.mem_map.mp (List.mem_reverse.mp hmem)
        simp at hxe
      · intro avail
        rw [hPdel]
        refine cbir_of_no_insert ?_ avail _
        intro pv v i hmem
        exact stage3Go_deletes_no_insert (calcMut fuel) parent oldTail m0 pv v i hmem
      · intro avail
        rw [hPcre]
        refine cbir_of_no_insert ?_ avail _
        intro pv v i hmem
        exact stage4Go_creates_no_insert (calcMut fuel) _ newTail pv v i hmem
      · intro avail
        rw [hPdown]
        refine cbir_append (cbir_append ?_ ?_) ?_
        · refine stage1Go_down_cbir (calcMut fuel) parent aligned ?_ _
          intro x hx
          have hx2 := mem_listWithIndicesFrom_snd _ _ _ hx
          have hx2e : (x.2.1, x.2.2) ∈ (olds2.take L).zip (news2.take L) := by
            rw [show ((x.2.1, x.2.2) : ShadowViewNodePair × ShadowViewNodePair) = x.2 by rfl]
            exact hx2
          obtain ⟨hxo, hxn⟩ := List.mem_zip hx2e
          have ho2 : x.2.1 ∈ olds2 := List.mem_of_mem_take hxo
          have hn2 : x.2.2 ∈ news2 := List.mem_of_mem_take hxn
          have ho : x.2.1 ∈ olds := mem_reorderInPlaceIfNeeded.mp (holds2 ▸ ho2)
          have hn : x.2.2 ∈ news := mem_reorderInPlaceIfNeeded.mp (hnews2 ▸ hn2)
          have hmo : pairMeasure x.2.1 ≤ pairsMeasure olds := by
            have := pairMeasure_le_of_mem ho2
            rw [hMolds] at this
            exact this
          have hmn : pairMeasure x.2.2 ≤ pairsMeasure news := by
            have := pairMeasure_le_of_mem hn2
            rw [hMnews] at this
            exact this
          have hso := sliceChildShadowNodeViewPairs_measure_lt x.2.1.shadowNode
          have hsn := sliceChildShadowNodeViewPairs_measure_lt x.2.2.shadowNode
          have hpm1 : pairMeasure x.2.1 = 3 ^ x.2.1.shadowNode.nodeSize := rfl
          have hpm2 : pairMeasure x.2.2 = 3 ^ x.2.2.shadowNode.nodeSize := rfl
          refine cbir_mono_escape ?_ (ih x.2.1.shadowView
            (sliceChildShadowNodeViewPairs x.2.1.shadowNode)
            (sliceChildShadowNodeViewPairs x.2.2.shadowNode)
            (by omega)
            (sliceChildShadowNodeViewPairs_wellTagged (hw x.2.2 hn).2))
          intro t hdeep
          exact TagInProjection.deeper t olds x.2.1 ho hdeep
        · refine stage3Go_down_cbir (calcMut fuel) parent oldTail m0 ?_ _
          intro x hx np hnp
          have hx2 : x.2 ∈ olds2.drop L := mem_listWithIndicesFrom_snd _ _ _ hx
          have ho2 : x.2 ∈ olds2 := List.mem_of_mem_drop hx2
          have ho : x.2 ∈ olds := mem_reorderInPlaceIfNeeded.mp (holds2 ▸ ho2)
          have hvals : m0.vector_.map Prod.snd = news2.drop L := by
            rw [hm0, foldl_tinyMap_insert_vector]
            simp only [List.nil_append, List.map_map]
            have := map_listWithIndicesFrom_snd
              (fun q : ShadowViewNodePair => q) (news2.drop L) L
            simpa using this
          rw [hvals] at hnp
          have hn2 : np ∈ news2 := List.mem_of_mem_drop hnp
          have hn : np ∈ news := mem_reorderInPlaceIfNeeded.mp (hnews2 ▸ hn2)
          have hmo : pairMeasure x.2 ≤ pairsMeasure olds := by
            have := pairMeasure_le_of_mem ho2
            rw [hMolds] at this
            exact this
          have hmn : pairMeasure np ≤ pairsMeasure news := by
            have := pairMeasure_le_of_mem hn2
            rw [hMnews] at this
            exact this
          have hso := sliceChildShadowNodeViewPairs_measure_lt x.2.shadowNode
          have hsn := sliceChildShadowNodeViewPairs_measure_lt np.shadowNode
          have hpm1 : pairMeasure x.2 = 3 ^ x.2.shadowNode.nodeSize := rfl
          have hpm2 : pairMeasure np = 3 ^ np.shadowNode.nodeSize := rfl
          refine cbir_mono_escape ?_ (ih np.shadowView
            (sliceChildShadowNodeViewPairs x.2.shadowNode)
            (sliceChildShadowNodeViewPairs np.shadowNode)
            (by omega)
            (sliceChildShadowNodeViewPairs_wellTagged (hw np hn).2))
          intro t hdeep
          exact TagInProjection.deeper t olds x.2 ho hdeep
        · refine stage4Go_down_cbir (calcMut fuel) _ newTail ?_ _
          intro x hx
          have hx2 : x.2 ∈ news2.drop L := mem_listWithIndicesFrom_snd _ _ _ hx
          have hn2 : x.2 ∈ news2 := List.mem_of_mem_drop hx2
          have hn : x.2 ∈ news := mem_reorderInPlaceIfNeeded.mp (hnews2 ▸ hn2)
          have hmn : pairMeasure x.2 ≤ pairsMeasure news := by
            have := pairMeasure_le_of_mem hn2
            rw [hMnews] at this
            exact this
          have hsn := sliceChildShadowNodeViewPairs_measure_lt x.2.shadowNode
          have hpm2 : pairMeasure x.2 = 3 ^ x.2.shadowNode.nodeSize := rfl
          have hcb := ih x.2.shadowView []
            (sliceChildShadowNodeViewPairs x.2.shadowNode)
            (by
              rw [pairsMeasure_nil]
              omega)
            (sliceChildShadowNodeViewPairs_wellTagged (hw x.2 hn).2)
          refine cbir_mono_escape ?_ hcb
          intro t hdeep
          exact absurd hdeep (not_tagInProjection_nil t)
      · intro avail hsub
        rw [hPins]
        rw [hPcre] at hsub
        intro l1 l2 pv v i heq
        have hmem_ins : ShadowViewMutation.insert pv v i
            ∈ newTail.map (fun p =>
                ShadowViewMutation.insert parent p.2.shadowView (Int.ofNat p.1)) := by
          rw [heq]
          exact List.mem_append_right _ (List.mem_cons_self _ _)
        obtain ⟨x, hx, hxe⟩ := List.mem_map.mp hmem_ins
        obtain ⟨hpv, hv, hi⟩ := ShadowViewMutation.insert.inj hxe
        have hx2 : x.2 ∈ news2.drop L := mem_listWithIndicesFrom_snd _ _ _ hx
        have hn2 : x.2 ∈ news2 := List.mem_of_mem_drop hx2
        have hn : x.2 ∈ news := mem_reorderInPlaceIfNeeded.mp (hnews2 ▸ hn2)
        by_cases hsome : (((stage3Go (calcMut fuel) parent oldTail
            m0).2.2.2.2).find x.2.shadowView.tag).isSome = true
        · left
          have hcre := stage4Go_create_of_mem (calcMut fuel)
            (stage3Go (calcMut fuel) parent oldTail m0).2.2.2.2 newTail x hx hsome
          have hinav : ShadowViewMutation.create v ∈ avail := hv ▸ hsub _ hcre
          exact List.mem_append.mpr (Or.inl hinav)
        · right
          have htagnz : x.2.shadowView.tag ≠ 0 := (hw x.2 hn).1
          have hnone : ((stage3Go (calcMut fuel) parent oldTail
              m0).2.2.2.2).find x.2.shadowView.tag = none :=
            Option.not_isSome_iff_eq_none.mp hsome
          have hm0find : m0.find x.2.shadowView.tag ≠ none := by
            intro habs
            rw [TinyMap.find_eq_none_iff] at habs
            have hentry : (x.2.shadowView.tag, x.2) ∈ m0.vector_ := by
              rw [hm0, foldl_tinyMap_insert_vector]
              simp only [List.nil_append]
              exact List.mem_map_of_mem _ hx
            exact habs _ hentry rfl
          rcases stage3Go_final_none_source (calcMut fuel) parent htagnz oldTail m0 hnone
            with hcase | hex
          · exact absurd hcase hm0find
          · obtain ⟨y, hy, hyt⟩ := hex
            have hy2 : y.2 ∈ olds2.drop L := mem_listWithIndicesFrom_snd _ _ _ hy
            have hyo : y.2 ∈ olds :=
              mem_reorderInPlaceIfNeeded.mp (holds2 ▸ List.mem_of_mem_drop hy2)
            rw [← hv]
            exact TagInProjection.here _ olds y.2 hyo hyt

/-- C3: in every mutation list returned by the root diff, each
`Insert(p, v, i)` is preceded earlier in the list by a `Create(v)`, unless a
view with v's tag was present in Old's flattened projection (the hypothesis is
the spec's tag contract for the new tree: tags are never zero). -/
theorem diffRoots_create_before_insert (oldRoot newRoot : ShadowNode)
    (hwt : newRoot.allTagsNonzero = true) :
    ∀ (l1 l2 : List ShadowViewMutation) (pv v : ShadowView) (i : Int),
      diffRoots oldRoot newRoot = l1 ++ ShadowViewMutation.insert pv v i :: l2 →
      ShadowViewMutation.create v ∈ l1
      ∨ TagInProjection v.tag (sliceChildShadowNodeViewPairs oldRoot) := by
  intro l1 l2 pv v i heq
  have hcb := calcMut_create_before_insert
    (pairsMeasure (sliceChildShadowNodeViewPairs oldRoot)
      + pairsMeasure (sliceChildShadowNodeViewPairs newRoot))
    oldRoot.toShadowView (sliceChildShadowNodeViewPairs oldRoot)
    (sliceChildShadowNodeViewPairs newRoot) (le_refl _)
    (sliceChildShadowNodeViewPairs_wellTagged hwt)
  by_cases hroot : oldRoot.toShadowView = newRoot.toShadowView
  · have hd : diffRoots oldRoot newRoot
        = calculateShadowViewMutations oldRoot.toShadowView
            (sliceChildShadowNodeViewPairs oldRoot)
            (sliceChildShadowNodeViewPairs newRoot) := by
      show (if oldRoot.toShadowView = newRoot.toShadowView then ([] : List ShadowViewMutation)
          else [ShadowViewMutation.update emptyShadowView oldRoot.toShadowView
            newRoot.toShadowView (-1)])
        ++ calculateShadowViewMutations oldRoot.toShadowView
            (sliceChildShadowNodeViewPairs oldRoot)
            (sliceChildShadowNodeViewPairs newRoot)
        = calculateShadowViewMutations oldRoot.toShadowView
            (sliceChildShadowNodeViewPairs oldRoot)
            (sliceChildShadowNodeViewPairs newRoot)
      rw [if_pos hroot, List.nil_append]
    rw [hd] at heq
    rcases hcb l1 l2 pv v i heq with hmem | hesc
    · left
      simpa using hmem
    · right
      exact hesc
  · have hd : diffRoots oldRoot newRoot
        = ShadowViewMutation.update emptyShadowView oldRoot.toShadowView
            newRoot.toShadowView (-1)
          :: calculateShadowViewMutations oldRoot.toShadowView
              (sliceChildShadowNodeViewPairs oldRoot)
              (sliceChildShadowNodeViewPairs newRoot) := by
      show (if oldRoot.toShadowView = newRoot.toShadowView then ([] : List ShadowViewMutation)
          else [ShadowViewMutation.update emptyShadowView oldRoot.toShadowView
            newRoot.toShadowView (-1)])
        ++ calculateShadowViewMutations oldRoot.toShadowView
            (sliceChildShadowNodeViewPairs oldRoot)
            (sliceChildShadowNodeViewPairs newRoot)
        = ShadowViewMutation.update emptyShadowView oldRoot.toShadowView
            newRoot.toShadowView (-1)
          :: calculateShadowViewMutations oldRoot.toShadowView
              (sliceChildShadowNodeViewPairs oldRoot)
              (sliceChildShadowNodeViewPairs newRoot)
      rw [if_neg hroot]
      rfl
    rw [hd] at heq
    cases l1 with
    | nil => simp at heq
    | cons a l1t =>
      simp only [List.cons_append, List.cons.injEq] at heq
      obtain ⟨ha, hrest⟩ := heq
      rcases hcb l1t l2 pv v i hrest with hmem | hesc
      · left
        exact List.mem_cons_of_mem a (by simpa using hmem)
      · right
        exact hesc

/-- C3 witness: in the prepend scenario, splitting the output at
`Insert(P, B, 0)` shows the earlier `Create(B)`. -/
theorem diffRoots_create_before_insert_witness :
    ShadowViewMutation.create nB.toShadowView ∈
      [ShadowViewMutation.remove nPold.toShadowView nA.toShadowView 0,
       ShadowViewMutation.create nB.toShadowView]
    ∨ TagInProjection (nB.toShadowView).tag (sliceChildShadowNodeViewPairs nPold) :=
  diffRoots_create_before_insert nPold nPnew (by decide)
    [ShadowViewMutation.remove nPold.toShadowView nA.toShadowView 0,
     ShadowViewMutation.create nB.toShadowView]
    [ShadowViewMutation.insert nPold.toShadowView nA.toShadowView 1]
    nPold.toShadowView nB.toShadowView 0 (by decide)
